import Mathlib

/-!
# concrunner: a bounded-concurrency task runner

A shallow embedding of `concrunner.go`.

* A Go interface value that may be `nil` is an `Option`: `none` is `nil`.
* `ρ` is the type of the values a task returns (`interface{}`), `ε` the type of
  the errors (`error`); all the runner ever does with an error is call its
  `Error()` method, which is the class `GoError`.
* A `ResultFunc` is a terminating function returning a (result, error) pair.
* The runner is shared by several threads. Its behaviour is a step relation on
  a state made of the runner's fields, the goroutines it has spawned and the
  threads calling its methods. The sections guarded by `p.mut` are single steps.
* The state comes at two levels of detail. In `Sys` the two slices are lists and
  a slot write `p.results[idx], p.me[idx] = f()` is one step on their current
  value; this is what the semaphore, the lengths and a single batch need. In
  `RaceSys` the slices are slice values over backing arrays, `append` may
  allocate, and the goroutine, which holds no lock, reads a slice value and
  writes through it in separate steps; this is where a slot write can meet the
  `append` of a later batch.
-/

namespace concrunner

/-! ## The aggregator: `MultiError` and `multiResult` -/

/-- The method set of Go's `error` interface. -/
class GoError (ε : Type) where
  /-- The message of the error, `e.Error()`. -/
  Error : ε → String

/-- Strings are errors whose message is the string itself (`errors.New`). -/
instance : GoError String := ⟨fun s => s⟩

/-- `type MultiError []error`: the errors in the order the functions were
scheduled, `nil` errors included. -/
abbrev MultiError (ε : Type) := List (Option ε)

/-- `type multiResult []interface{}`. -/
abbrev multiResult (ρ : Type) := List (Option ρ)

/-- `type ResultFunc func() (interface{}, error)`. -/
abbrev ResultFunc (ρ ε : Type) := Unit → Option ρ × Option ε

/-- One iteration of the loop of `MultiError.Error`: on a non-nil `e` it does
`err = e; numErrs++`. The accumulator is `(numErrs, err)`. -/
def errorLoopBody {ε : Type} (acc : Nat × Option ε) (e : Option ε) : Nat × Option ε :=
  match e with
  | some x => (acc.1 + 1, some x)
  | none => acc

/-- The loop `for _, e := range me` of `MultiError.Error`, started from
`numErrs := 0` and `var err error`. -/
def errorLoop {ε : Type} (me : MultiError ε) : Nat × Option ε :=
  me.foldl errorLoopBody (0, none)

/-- `err.Error()` on an interface value; calling it on `nil` is a nil
dereference, `none` here. -/
def callError {ε : Type} [GoError ε] : Option ε → Option String
  | some x => some (GoError.Error x)
  | none => none

/-- `func (me MultiError) Error() string`. The result is `none` only where Go
would dereference a nil `err`, which `MultiError.Error_isSome` excludes.
`fmt.Sprintf("%s and %d other errors", ..)` prints the count in decimal. -/
def MultiError.Error {ε : Type} [GoError ε] (me : MultiError ε) : Option String :=
  let numErrs := (errorLoop me).1
  let err := (errorLoop me).2
  if numErrs = 0 then
    some "No errors"
  else if numErrs = 1 then
    callError err
  else
    (callError err).map (fun m => m ++ " and " ++ Nat.repr (numErrs - 1) ++ " other errors")

/-- `func (me MultiError) HasError() bool`. -/
def MultiError.HasError {ε : Type} (me : MultiError ε) : Bool :=
  if me.length = 0 then
    false
  else
    me.any (fun e => e.isSome)

/-- `func (me MultiError) ReturnError() error`: `me` itself when it has an
error, `nil` otherwise. -/
def MultiError.ReturnError {ε : Type} (me : MultiError ε) : Option (MultiError ε) :=
  if MultiError.HasError me then some me else none

/-- `func (mr multiResult) HasResults() bool`. -/
def multiResult.HasResults {ρ : Type} (mr : multiResult ρ) : Bool :=
  mr.any (fun r => r.isSome)

/-- The number of non-nil entries of a `MultiError`. -/
def numErrors {ε : Type} (me : MultiError ε) : Nat :=
  (me.filter (fun e => e.isSome)).length

/-- The first non-nil entry of a `MultiError`, if any. -/
def firstError {ε : Type} (me : MultiError ε) : Option ε :=
  me.findSome? id

/-- The last non-nil entry of a `MultiError`, if any. -/
def lastError {ε : Type} (me : MultiError ε) : Option ε :=
  me.reverse.findSome? id

/-! ## The runner and its threads -/

/-- `type concRunner struct`. Of the channel `sem` only the number of buffered
values `len(p.sem)` and the capacity `cap(p.sem)` matter; the mutex `mut` is
held inside single steps only. -/
structure concRunner (ρ ε : Type) where
  /-- The field `me MultiError`. -/
  me : MultiError ε
  /-- The number of values buffered in `sem`, `len(p.sem)`. -/
  sem : Nat
  /-- The capacity of `sem`, `cap(p.sem)`. -/
  semCap : Nat
  /-- The field `done bool`. -/
  done : Bool
  /-- The field `results multiResult`. -/
  results : multiResult ρ

/-- `func New(max int) *concRunner`: `sem = make(chan bool, max)`,
`me = []error{}`, the other fields zero. -/
def New {ρ ε : Type} (max : Nat) : concRunner ρ ε :=
  { me := [], sem := 0, semCap := max, done := false, results := [] }

/-- The send `p.sem <- true`: it goes through when the buffer has room and
blocks (`none`) otherwise. -/
def concRunner.acquire {ρ ε : Type} (p : concRunner ρ ε) : Option (concRunner ρ ε) :=
  if p.sem < p.semCap then some { p with sem := p.sem + 1 } else none

/-- The receive `<-p.sem`: it goes through when a value is buffered and blocks
(`none`) otherwise. -/
def concRunner.release {ρ ε : Type} (p : concRunner ρ ε) : Option (concRunner ρ ε) :=
  if 0 < p.sem then some { p with sem := p.sem - 1 } else none

/-- The message of the panic of `RunAndCombine`. -/
def reusedMsg : String := "This runner has already been used and can't be reused"

/-- The first part of `func (p *concRunner) RunAndCombine(fns ...ResultFunc)`,
up to `p.mut.Unlock()`: nothing happens for no function; it panics (`error`)
when `p.done`; otherwise `len(fns)` nil slots are appended to `p.me` and to
`p.results` and `(low, high)` is the range of the new slots. -/
def concRunner.RunAndCombine_reserve {ρ ε : Type} (p : concRunner ρ ε)
    (fns : List (ResultFunc ρ ε)) : Except String (concRunner ρ ε × Option (Nat × Nat)) :=
  if fns.length = 0 then
    .ok (p, none)
  else if p.done then
    .error reusedMsg
  else
    let errs : List (Option ε) := List.replicate fns.length none
    let results : List (Option ρ) := List.replicate fns.length none
    let low := p.me.length
    let me' := p.me ++ errs
    let results' := p.results ++ results
    let high := me'.length
    .ok ({ p with me := me', results := results' }, some (low, high))

/-- What `Wait` returns: `p.results, p.me.ReturnError()`. -/
def concRunner.view {ρ ε : Type} (p : concRunner ρ ε) : multiResult ρ × Option (MultiError ε) :=
  (p.results, MultiError.ReturnError p.me)

/-- Where a goroutine `go func(idx int) { .. }(i)` of `RunAndCombine` stands:
not started, inside the call `fns[idx-low]()`, after the assignment of its
outcome and before `<-p.sem`, or finished. -/
inductive Phase where
  | spawned
  | running
  | stored
  | exited
  deriving DecidableEq, Repr

/-- A goroutine spawned by `RunAndCombine`: its argument `idx` and the `fns` and
`low` its closure captures. -/
structure Goroutine (ρ ε : Type) where
  /-- The argument `idx`. -/
  idx : Nat
  /-- The captured `fns`. -/
  fns : List (ResultFunc ρ ε)
  /-- The captured `low`. -/
  low : Nat
  /-- Where the goroutine stands. -/
  phase : Phase

/-- The function `fns[idx-low]` a goroutine calls; `none` is an index out of
range. -/
def Goroutine.task {ρ ε : Type} (g : Goroutine ρ ε) : Option (ResultFunc ρ ε) :=
  g.fns[g.idx - g.low]?

/-- One step of a goroutine `p.results[idx], p.me[idx] = fns[idx-low](); <-p.sem`.
A step that would panic (an index out of range) or that blocks is `none`. The
slot write is one step on the current slices, which is what the source does as
long as no `append` of `RunAndCombine` runs between the read of the slice value
and the write; `raceGoroutineStep` is the goroutine without that assumption. -/
def goroutineStep {ρ ε : Type} (p : concRunner ρ ε) (g : Goroutine ρ ε) :
    Option (concRunner ρ ε × Goroutine ρ ε) :=
  match g.phase with
  | .spawned =>
    match g.task with
    | some _ => some (p, { g with phase := .running })
    | none => none
  | .running =>
    match g.task with
    | some f =>
      if g.idx < p.results.length ∧ g.idx < p.me.length then
        some ({ p with results := p.results.set g.idx (f ()).1, me := p.me.set g.idx (f ()).2 },
              { g with phase := .stored })
      else none
    | none => none
  | .stored => (p.release).map (fun p' => (p', { g with phase := .exited }))
  | .exited => none

/-- A call of a method of the runner. -/
inductive Call (ρ ε : Type) where
  | RunAndCombine (fns : List (ResultFunc ρ ε))
  | Wait

/-- Where a thread that calls the runner stands: between two calls, in the loop
`for i := low; i < high; i++` of `RunAndCombine`, in the loop
`for i := 0; i < cap(p.sem); i++` of `Wait`, or stopped by a panic. -/
inductive Ctl (ρ ε : Type) where
  | idle
  | submitLoop (fns : List (ResultFunc ρ ε)) (low i high : Nat)
  | waitLoop (i : Nat)
  | panicked (msg : String)

/-- A thread calling the runner: where it stands, the calls it still makes, and
what its calls of `Wait` have returned so far, oldest first. -/
structure Caller (ρ ε : Type) where
  /-- Where the thread stands. -/
  ctl : Ctl ρ ε
  /-- The calls still to make. -/
  prog : List (Call ρ ε)
  /-- The values returned by `Wait` so far. -/
  rets : List (multiResult ρ × Option (MultiError ε))

/-- One step of a calling thread; the list holds the goroutine it spawns, if
any. `none`: the thread has nothing to do, has panicked, or blocks on
`p.sem <- true`.

* `RunAndCombine`, lines 121-135, is `RunAndCombine_reserve`; one iteration of
  its loop is `p.sem <- true` followed by the `go` statement.
* `Wait`, lines 149-155: with `p.done` it returns `p.results, p.me.ReturnError()`
  at once, otherwise it sets `p.done` and enters its loop of `p.sem <- true`;
  after the loop it returns `p.results, p.me.ReturnError()`. -/
def callerStep {ρ ε : Type} (p : concRunner ρ ε) (c : Caller ρ ε) :
    Option (concRunner ρ ε × Caller ρ ε × List (Goroutine ρ ε)) :=
  match c.ctl with
  | .idle =>
    match c.prog with
    | [] => none
    | .RunAndCombine fns :: rest =>
      match p.RunAndCombine_reserve fns with
      | .ok (p', none) => some (p', { c with prog := rest }, [])
      | .ok (p', some (low, high)) =>
        some (p', { c with ctl := .submitLoop fns low low high, prog := rest }, [])
      | .error msg => some (p, { c with ctl := .panicked msg, prog := rest }, [])
    | .Wait :: rest =>
      if p.done then
        some (p, { c with prog := rest, rets := c.rets ++ [p.view] }, [])
      else
        some ({ p with done := true }, { c with ctl := .waitLoop 0, prog := rest }, [])
  | .submitLoop fns low i high =>
    if i < high then
      (p.acquire).map (fun p' =>
        (p', { c with ctl := .submitLoop fns low (i + 1) high },
         [{ idx := i, fns := fns, low := low, phase := .spawned }]))
    else
      some (p, { c with ctl := .idle }, [])
  | .waitLoop i =>
    if i < p.semCap then
      (p.acquire).map (fun p' => (p', { c with ctl := .waitLoop (i + 1) }, []))
    else
      some (p, { c with ctl := .idle, rets := c.rets ++ [p.view] }, [])
  | .panicked _ => none

/-- The runner together with the goroutines it has spawned (finished ones
included, in the order they were spawned) and the threads that call it. -/
structure Sys (ρ ε : Type) where
  /-- The runner. -/
  p : concRunner ρ ε
  /-- The goroutines spawned so far. -/
  gs : List (Goroutine ρ ε)
  /-- The calling threads. -/
  callers : List (Caller ρ ε)

/-- Who takes the next step: the `t`-th calling thread or the `k`-th goroutine. -/
inductive Action where
  | caller (t : Nat)
  | task (k : Nat)
  deriving DecidableEq, Repr

/-- The step of the thread named by the action, `none` when it cannot move. -/
def step {ρ ε : Type} (s : Sys ρ ε) : Action → Option (Sys ρ ε)
  | .caller t =>
    match s.callers[t]? with
    | none => none
    | some c =>
      (callerStep s.p c).map (fun r =>
        { p := r.1, gs := s.gs ++ r.2.2, callers := s.callers.set t r.2.1 })
  | .task k =>
    match s.gs[k]? with
    | none => none
    | some g =>
      (goroutineStep s.p g).map (fun r =>
        { p := r.1, gs := s.gs.set k r.2, callers := s.callers })

/-- One step of some thread. -/
def Step {ρ ε : Type} (s s' : Sys ρ ε) : Prop := ∃ a, step s a = some s'

/-- The states some interleaving of the threads leads to. -/
def Reachable {ρ ε : Type} (s s' : Sys ρ ε) : Prop := Relation.ReflTransGen Step s s'

/-- A fresh runner `New(max)` and one thread per list of calls. -/
def boot {ρ ε : Type} (max : Nat) (progs : List (List (Call ρ ε))) : Sys ρ ε :=
  { p := New max, gs := [],
    callers := progs.map (fun pr => { ctl := .idle, prog := pr, rets := [] }) }

/-- The given schedule, run from `s`; `none` when one of its steps cannot be
taken. -/
def runActions {ρ ε : Type} (s : Sys ρ ε) : List Action → Option (Sys ρ ε)
  | [] => some s
  | a :: as => (step s a).bind (fun s' => runActions s' as)

/-- Every thread of the state, calling threads first. -/
def actions {ρ ε : Type} (s : Sys ρ ε) : List Action :=
  (List.range s.callers.length).map Action.caller ++ (List.range s.gs.length).map Action.task

/-- The step of the first thread that can move. -/
def next {ρ ε : Type} (s : Sys ρ ε) : Option (Sys ρ ε) :=
  (actions s).findSome? (step s)

/-- The schedule that always moves the first thread that can move, for at most
`fuel` steps. -/
def run {ρ ε : Type} : Nat → Sys ρ ε → Sys ρ ε
  | 0, s => s
  | fuel + 1, s =>
    match next s with
    | some s' => run fuel s'
    | none => s

/-- What the calls of `Wait` of the `t`-th thread have returned so far. -/
def waitRets {ρ ε : Type} (s : Sys ρ ε) (t : Nat) : List (multiResult ρ × Option (MultiError ε)) :=
  match s.callers[t]? with
  | some c => c.rets
  | none => []

/-- The batches a thread submits before its first call of `Wait`, as one
sequence of functions in submission order. -/
def batchesOf {ρ ε : Type} : List (Call ρ ε) → List (ResultFunc ρ ε)
  | [] => []
  | .RunAndCombine fns :: rest => fns ++ batchesOf rest
  | .Wait :: _ => []

/-- An upper bound on the steps a call takes, the steps of the goroutines it
spawns included. -/
def Call.cost {ρ ε : Type} (semCap : Nat) : Call ρ ε → Nat
  | .RunAndCombine fns => 4 * fns.length + 2
  | .Wait => semCap + 2

/-- An upper bound on the steps the call in progress still takes. -/
def Ctl.cost {ρ ε : Type} (semCap : Nat) : Ctl ρ ε → Nat
  | .idle => 0
  | .submitLoop _ _ i high => 4 * (high - i) + 1
  | .waitLoop i => (semCap - i) + 1
  | .panicked _ => 0

/-- An upper bound on the steps a calling thread still takes. -/
def Caller.cost {ρ ε : Type} (semCap : Nat) (c : Caller ρ ε) : Nat :=
  c.ctl.cost semCap + (c.prog.map (Call.cost semCap)).sum

/-- The steps a goroutine still takes. -/
def Phase.cost : Phase → Nat
  | .spawned => 3
  | .running => 2
  | .stored => 1
  | .exited => 0

/-- An upper bound on the number of steps left in a state: every step makes
it smaller. -/
def measure {ρ ε : Type} (s : Sys ρ ε) : Nat :=
  (s.callers.map (Caller.cost s.p.semCap)).sum + (s.gs.map (fun g => g.phase.cost)).sum

/-- `func runMax(max int, fns ...ResultFunc) ([]interface{}, error)`. With two
functions or more the runner is driven by the schedule `run`; `none` is a call
that never returns. -/
def runMax {ρ ε : Type} (max : Nat) (fns : List (ResultFunc ρ ε)) :
    Option (multiResult ρ × Option (MultiError ε)) :=
  match fns with
  | [] => some ([], none)
  | [f] =>
    match f () with
    | (res, some err) => some ([res], some [some err])
    | (res, none) => some ([res], none)
  | _ =>
    let pr : Sys ρ ε := boot max [[.RunAndCombine fns, .Wait]]
    (waitRets (run (measure pr) pr) 0).head?

/-- `func RunAndCombine(fns ...ResultFunc) ([]interface{}, error)`, the
function of the package. -/
def RunAndCombine {ρ ε : Type} (fns : List (ResultFunc ρ ε)) :
    Option (multiResult ρ × Option (MultiError ε)) :=
  runMax 5 fns

/-- The goroutine holds a permit: it has been spawned and has not yet done
`<-p.sem`. -/
def Goroutine.holding {ρ ε : Type} (g : Goroutine ρ ε) : Bool :=
  g.phase != .exited

/-- The goroutine is executing: it has started its function and has not yet
released its permit. -/
def Goroutine.executing {ρ ε : Type} (g : Goroutine ρ ε) : Bool :=
  g.phase == .running || g.phase == .stored

/-- The thread is inside the loop of `RunAndCombine` with a task left to
launch. -/
def Ctl.submitting {ρ ε : Type} : Ctl ρ ε → Bool
  | .submitLoop _ _ i high => decide (i < high)
  | _ => false

/-- The thread has panicked. -/
def Ctl.isPanicked {ρ ε : Type} : Ctl ρ ε → Bool
  | .panicked _ => true
  | _ => false

/-- The thread is between two calls. -/
def Ctl.isIdle {ρ ε : Type} : Ctl ρ ε → Bool
  | .idle => true
  | _ => false

/-- The steps of `callerStep`, one constructor for each path through
`RunAndCombine` and `Wait`. -/
inductive CallerStep {ρ ε : Type} (p : concRunner ρ ε) (c : Caller ρ ε) :
    concRunner ρ ε → Caller ρ ε → List (Goroutine ρ ε) → Prop where
  | emptyBatch (rest : List (Call ρ ε)) :
      c.ctl = .idle → c.prog = .RunAndCombine [] :: rest →
      CallerStep p c p { c with prog := rest } []
  | reserve (fns : List (ResultFunc ρ ε)) (rest : List (Call ρ ε)) :
      c.ctl = .idle → c.prog = .RunAndCombine fns :: rest → fns ≠ [] → p.done = false →
      CallerStep p c
        { p with me := p.me ++ List.replicate fns.length none,
                 results := p.results ++ List.replicate fns.length none }
        { c with ctl := .submitLoop fns p.me.length p.me.length (p.me.length + fns.length),
                 prog := rest } []
  | reused (fns : List (ResultFunc ρ ε)) (rest : List (Call ρ ε)) :
      c.ctl = .idle → c.prog = .RunAndCombine fns :: rest → fns ≠ [] → p.done = true →
      CallerStep p c p { c with ctl := .panicked reusedMsg, prog := rest } []
  | waitAgain (rest : List (Call ρ ε)) :
      c.ctl = .idle → c.prog = .Wait :: rest → p.done = true →
      CallerStep p c p { c with prog := rest, rets := c.rets ++ [p.view] } []
  | waitFirst (rest : List (Call ρ ε)) :
      c.ctl = .idle → c.prog = .Wait :: rest → p.done = false →
      CallerStep p c { p with done := true } { c with ctl := .waitLoop 0, prog := rest } []
  | spawn (fns : List (ResultFunc ρ ε)) (low i high : Nat) :
      c.ctl = .submitLoop fns low i high → i < high → p.sem < p.semCap →
      CallerStep p c { p with sem := p.sem + 1 }
        { c with ctl := .submitLoop fns low (i + 1) high }
        [{ idx := i, fns := fns, low := low, phase := .spawned }]
  | submitted (fns : List (ResultFunc ρ ε)) (low i high : Nat) :
      c.ctl = .submitLoop fns low i high → ¬ i < high →
      CallerStep p c p { c with ctl := .idle } []
  | drain (i : Nat) :
      c.ctl = .waitLoop i → i < p.semCap → p.sem < p.semCap →
      CallerStep p c { p with sem := p.sem + 1 } { c with ctl := .waitLoop (i + 1) } []
  | waitReturn (i : Nat) :
      c.ctl = .waitLoop i → ¬ i < p.semCap →
      CallerStep p c p { c with ctl := .idle, rets := c.rets ++ [p.view] } []

/-- The steps of `goroutineStep`. -/
inductive GoStep {ρ ε : Type} (p : concRunner ρ ε) (g : Goroutine ρ ε) :
    concRunner ρ ε → Goroutine ρ ε → Prop where
  | start (f : ResultFunc ρ ε) :
      g.phase = .spawned → g.task = some f →
      GoStep p g p { g with phase := .running }
  | store (f : ResultFunc ρ ε) :
      g.phase = .running → g.task = some f → g.idx < p.results.length → g.idx < p.me.length →
      GoStep p g
        { p with results := p.results.set g.idx (f ()).1, me := p.me.set g.idx (f ()).2 }
        { g with phase := .stored }
  | release :
      g.phase = .stored → 0 < p.sem →
      GoStep p g { p with sem := p.sem - 1 } { g with phase := .exited }

/-- The values the loop of `Wait` has sent to `p.sem`, for a runner with one
calling thread: `i` inside the loop, all `cap(p.sem)` after it. -/
def pushes {ρ ε : Type} (p : concRunner ρ ε) (c : Caller ρ ε) : Nat :=
  match c.ctl with
  | .waitLoop i => i
  | _ => if p.done then p.semCap else 0

/-- The result a goroutine has stored in its slot so far. -/
def Goroutine.res {ρ ε : Type} (g : Goroutine ρ ε) : Option ρ :=
  match g.phase, g.task with
  | .stored, some f => (f ()).1
  | .exited, some f => (f ()).1
  | _, _ => none

/-- The error a goroutine has stored in its slot so far. -/
def Goroutine.err {ρ ε : Type} (g : Goroutine ρ ε) : Option ε :=
  match g.phase, g.task with
  | .stored, some f => (f ()).2
  | .exited, some f => (f ()).2
  | _, _ => none

/-- The functions of the loop of `RunAndCombine` that are not launched yet. -/
def Ctl.pending {ρ ε : Type} : Ctl ρ ε → List (ResultFunc ρ ε)
  | .submitLoop fns low i _ => fns.drop (i - low)
  | _ => []

/-- What the control state of the one calling thread says about the runner. -/
def CtlInv {ρ ε : Type} (s : Sys ρ ε) (c : Caller ρ ε) : Prop :=
  match c.ctl with
  | .idle => s.gs.length = s.p.me.length ∧ (s.p.done = true → c.rets ≠ [])
  | .submitLoop fns low i high =>
    high = s.p.me.length ∧ i = s.gs.length ∧ low ≤ i ∧ i ≤ high ∧ low + fns.length = high ∧
      s.p.done = false
  | .waitLoop i =>
    i ≤ s.p.semCap ∧ s.p.done = true ∧ s.gs.length = s.p.me.length ∧ c.rets = []
  | .panicked _ => s.p.done = true ∧ s.gs.length = s.p.me.length

/-- The invariant of a runner used by one thread that runs the calls `prog0`:
the buffered values of `sem` are the permits of the live goroutines and the
values sent by `Wait`; goroutine `k` serves slot `k` and runs the `k`-th function
submitted; the slots hold what the goroutines have stored and nil elsewhere;
whatever `Wait` has returned is the present content of the runner. -/
structure SeqInv {ρ ε : Type} (prog0 : List (Call ρ ε)) (s : Sys ρ ε) (c : Caller ρ ε) :
    Prop where
  callers_eq : s.callers = [c]
  sem_eq : s.p.sem = s.gs.countP Goroutine.holding + pushes s.p c
  sem_le : s.p.sem ≤ s.p.semCap
  idx_eq : ∀ (k : Nat) (g : Goroutine ρ ε), s.gs[k]? = some g → g.idx = k
  len_le : s.gs.length ≤ s.p.me.length
  results_eq : s.p.results =
    s.gs.map Goroutine.res ++ List.replicate (s.p.me.length - s.gs.length) none
  me_eq : s.p.me =
    s.gs.map Goroutine.err ++ List.replicate (s.p.me.length - s.gs.length) none
  ctl_ok : CtlInv s c
  rets_ok : ∀ v ∈ c.rets, s.p.done = true ∧ v = s.p.view
  tasks_ok : s.gs.map Goroutine.task ++
      (c.ctl.pending ++ (if s.p.done then [] else batchesOf c.prog)).map some =
    (batchesOf prog0).map some

/-- The calls left to a thread that submits batches and then calls `Wait`
once: it never panics, and `Wait` returns at most once. -/
def ProgInv {ρ ε : Type} (s : Sys ρ ε) (c : Caller ρ ε) : Prop :=
  c.ctl.isPanicked = false ∧ c.rets.length ≤ 1 ∧
  ((s.p.done = false ∧ ∃ rem : List (List (ResultFunc ρ ε)),
      c.prog = rem.map Call.RunAndCombine ++ [Call.Wait]) ∨
   (s.p.done = true ∧ c.prog = []))

/-- The calls of a thread that submits the batches in order and then calls
`Wait`. -/
def seqProg {ρ ε : Type} (batches : List (List (ResultFunc ρ ε))) : List (Call ρ ε) :=
  batches.map Call.RunAndCombine ++ [Call.Wait]

/-- The results of the functions, in order. -/
def resultsOf {ρ ε : Type} (fns : List (ResultFunc ρ ε)) : multiResult ρ :=
  fns.map (fun f => (f ()).1)

/-- The errors of the functions, in order. -/
def errorsOf {ρ ε : Type} (fns : List (ResultFunc ρ ε)) : MultiError ε :=
  fns.map (fun f => (f ()).2)

/-! ## The slices in memory -/

/-- A Go slice value: its backing array (a position in the heap), its length
and its capacity. -/
structure Slice where
  /-- The backing array. -/
  arr : Nat
  /-- The length, `len(s)`. -/
  len : Nat
  /-- The capacity, `cap(s)`. -/
  cap : Nat
  deriving DecidableEq, Repr

/-- The backing arrays allocated so far, oldest first. -/
abbrev Heap (α : Type) := List (List (Option α))

/-- The backing array of a slice; a slice of capacity 0 has none. -/
def Heap.array {α : Type} (h : Heap α) (s : Slice) : List (Option α) :=
  match h[s.arr]? with
  | some a => a
  | none => []

/-- The elements of a slice: the first `len(s)` cells of its backing array. -/
def Heap.cells {α : Type} (h : Heap α) (s : Slice) : List (Option α) :=
  (Heap.array h s).take s.len

/-- The assignment `s[i] = v` through the slice value `s`: it writes cell `i`
of the backing array of `s`; `none` is an index out of range. -/
def Heap.store {α : Type} (h : Heap α) (s : Slice) (i : Nat) (v : Option α) :
    Option (Heap α) :=
  if i < s.len then some (h.set s.arr ((Heap.array h s).set i v)) else none

/-- The capacity gc's `growslice` picks for a slice of capacity `oldCap` that
has to hold `newLen` elements, for capacities under 256. -/
def growSmall (oldCap newLen : Nat) : Nat :=
  if 2 * oldCap < newLen then newLen else 2 * oldCap

/-- The built-in `append(s, vs...)`: when the capacity is large enough the
values go into the backing array of `s`; otherwise a new array of capacity
`grow (cap s) (len s + len vs)` is allocated, the elements of `s` are copied
into it and the values follow. The old array stays as it is. -/
def Heap.append {α : Type} (grow : Nat → Nat → Nat) (h : Heap α) (s : Slice)
    (vs : List (Option α)) : Heap α × Slice :=
  if s.len + vs.length ≤ s.cap then
    (h.set s.arr
        ((Heap.array h s).take s.len ++ vs ++ (Heap.array h s).drop (s.len + vs.length)),
      { s with len := s.len + vs.length })
  else
    (h ++ [Heap.cells h s ++ vs ++
        List.replicate (grow s.cap (s.len + vs.length) - (s.len + vs.length)) none],
      { arr := h.length, len := s.len + vs.length,
        cap := grow s.cap (s.len + vs.length) })

/-- The runner with its two slices in memory: `me` and `results` are slice
values over the heaps of their backing arrays. -/
structure RaceRunner (ρ ε : Type) where
  /-- The backing arrays of `p.me`. -/
  meHeap : Heap ε
  /-- The field `me MultiError`. -/
  me : Slice
  /-- The backing arrays of `p.results`. -/
  resHeap : Heap ρ
  /-- The field `results multiResult`. -/
  results : Slice
  /-- The number of values buffered in `sem`. -/
  sem : Nat
  /-- The capacity of `sem`. -/
  semCap : Nat
  /-- The field `done bool`. -/
  done : Bool

/-- `New(max)` with the slices in memory: `me` is empty, `results` is nil, no
array is allocated. -/
def RaceRunner.New {ρ ε : Type} (max : Nat) : RaceRunner ρ ε :=
  { meHeap := [], me := ⟨0, 0, 0⟩, resHeap := [], results := ⟨0, 0, 0⟩,
    sem := 0, semCap := max, done := false }

/-- What `Wait` returns, `p.results, p.me.ReturnError()`, as the caller reads
it. -/
def RaceRunner.view {ρ ε : Type} (p : RaceRunner ρ ε) : multiResult ρ × Option (MultiError ε) :=
  (Heap.cells p.resHeap p.results, MultiError.ReturnError (Heap.cells p.meHeap p.me))

/-- The locked part of `RunAndCombine`, lines 121-135, with the two `append`s
in memory. -/
def RaceRunner.RunAndCombine_reserve {ρ ε : Type} (grow : Nat → Nat → Nat)
    (p : RaceRunner ρ ε) (fns : List (ResultFunc ρ ε)) :
    Except String (RaceRunner ρ ε × Option (Nat × Nat)) :=
  if fns.length = 0 then
    .ok (p, none)
  else if p.done then
    .error reusedMsg
  else
    let errs : List (Option ε) := List.replicate fns.length none
    let results : List (Option ρ) := List.replicate fns.length none
    let low := p.me.len
    let me' := Heap.append grow p.meHeap p.me errs
    let results' := Heap.append grow p.resHeap p.results results
    let high := me'.2.len
    .ok ({ p with meHeap := me'.1, me := me'.2, resHeap := results'.1, results := results'.2 },
         some (low, high))

/-- Where a goroutine stands inside
`p.results[idx], p.me[idx] = fns[idx-low](); <-p.sem`, statement by memory
access: the call, then for each of the two assignments the read of the slice
value and the write through it, then the receive. The goroutine holds no lock. -/
inductive RacePhase (ρ ε : Type) where
  | spawned
  | calling
  | returned (r : Option ρ) (e : Option ε)
  | resLoaded (r : Option ρ) (e : Option ε) (hdr : Slice)
  | resStored (e : Option ε)
  | errLoaded (e : Option ε) (hdr : Slice)
  | stored
  | exited

/-- A goroutine of `RunAndCombine` with its accesses to memory. -/
structure RaceGoroutine (ρ ε : Type) where
  /-- The argument `idx`. -/
  idx : Nat
  /-- The captured `fns`. -/
  fns : List (ResultFunc ρ ε)
  /-- The captured `low`. -/
  low : Nat
  /-- Where the goroutine stands. -/
  phase : RacePhase ρ ε

/-- One memory access or blocking operation of a goroutine. -/
def raceGoroutineStep {ρ ε : Type} (p : RaceRunner ρ ε) (g : RaceGoroutine ρ ε) :
    Option (RaceRunner ρ ε × RaceGoroutine ρ ε) :=
  match g.phase with
  | .spawned =>
    match g.fns[g.idx - g.low]? with
    | some _ => some (p, { g with phase := .calling })
    | none => none
  | .calling =>
    match g.fns[g.idx - g.low]? with
    | some f => some (p, { g with phase := .returned (f ()).1 (f ()).2 })
    | none => none
  | .returned r e => some (p, { g with phase := .resLoaded r e p.results })
  | .resLoaded r e hdr =>
    (Heap.store p.resHeap hdr g.idx r).map (fun h =>
      ({ p with resHeap := h }, { g with phase := .resStored e }))
  | .resStored e => some (p, { g with phase := .errLoaded e p.me })
  | .errLoaded e hdr =>
    (Heap.store p.meHeap hdr g.idx e).map (fun h =>
      ({ p with meHeap := h }, { g with phase := .stored }))
  | .stored =>
    if 0 < p.sem then some ({ p with sem := p.sem - 1 }, { g with phase := .exited }) else none
  | .exited => none

/-- One step of a calling thread, as `callerStep`, on the runner in memory. -/
def raceCallerStep {ρ ε : Type} (grow : Nat → Nat → Nat) (p : RaceRunner ρ ε)
    (c : Caller ρ ε) : Option (RaceRunner ρ ε × Caller ρ ε × List (RaceGoroutine ρ ε)) :=
  match c.ctl with
  | .idle =>
    match c.prog with
    | [] => none
    | .RunAndCombine fns :: rest =>
      match p.RunAndCombine_reserve grow fns with
      | .ok (p', none) => some (p', { c with prog := rest }, [])
      | .ok (p', some (low, high)) =>
        some (p', { c with ctl := .submitLoop fns low low high, prog := rest }, [])
      | .error msg => some (p, { c with ctl := .panicked msg, prog := rest }, [])
    | .Wait :: rest =>
      if p.done then
        some (p, { c with prog := rest, rets := c.rets ++ [p.view] }, [])
      else
        some ({ p with done := true }, { c with ctl := .waitLoop 0, prog := rest }, [])
  | .submitLoop fns low i high =>
    if i < high then
      if p.sem < p.semCap then
        some ({ p with sem := p.sem + 1 }, { c with ctl := .submitLoop fns low (i + 1) high },
          [{ idx := i, fns := fns, low := low, phase := .spawned }])
      else none
    else
      some (p, { c with ctl := .idle }, [])
  | .waitLoop i =>
    if i < p.semCap then
      if p.sem < p.semCap then
        some ({ p with sem := p.sem + 1 }, { c with ctl := .waitLoop (i + 1) }, [])
      else none
    else
      some (p, { c with ctl := .idle, rets := c.rets ++ [p.view] }, [])
  | .panicked _ => none

/-- The runner in memory, its goroutines and its calling threads. -/
structure RaceSys (ρ ε : Type) where
  /-- The runner. -/
  p : RaceRunner ρ ε
  /-- The goroutines spawned so far. -/
  gs : List (RaceGoroutine ρ ε)
  /-- The calling threads. -/
  callers : List (Caller ρ ε)

/-- The step of the thread named by the action, on the runner in memory. -/
def raceStep {ρ ε : Type} (grow : Nat → Nat → Nat) (s : RaceSys ρ ε) :
    Action → Option (RaceSys ρ ε)
  | .caller t =>
    match s.callers[t]? with
    | none => none
    | some c =>
      (raceCallerStep grow s.p c).map (fun r =>
        { p := r.1, gs := s.gs ++ r.2.2, callers := s.callers.set t r.2.1 })
  | .task k =>
    match s.gs[k]? with
    | none => none
    | some g =>
      (raceGoroutineStep s.p g).map (fun r =>
        { p := r.1, gs := s.gs.set k r.2, callers := s.callers })

/-- A fresh runner in memory and one thread per list of calls. -/
def raceBoot {ρ ε : Type} (max : Nat) (progs : List (List (Call ρ ε))) : RaceSys ρ ε :=
  { p := RaceRunner.New max, gs := [],
    callers := progs.map (fun pr => { ctl := .idle, prog := pr, rets := [] }) }

/-- The given schedule, run from `s` on the runner in memory. -/
def raceRun {ρ ε : Type} (grow : Nat → Nat → Nat) (s : RaceSys ρ ε) :
    List Action → Option (RaceSys ρ ε)
  | [] => some s
  | a :: as => (raceStep grow s a).bind (fun s' => raceRun grow s' as)

/-- What the calls of `Wait` have returned to each thread. -/
def RaceSys.rets {ρ ε : Type} (s : RaceSys ρ ε) :
    List (List (multiResult ρ × Option (MultiError ε))) :=
  s.callers.map (fun c => c.rets)

/-! ## Sample functions and states -/

/-- A function that returns the result 0 and no error. -/
def t0 : ResultFunc Nat String := fun _ => (some 0, none)

/-- A function that returns the result 1 and the error "bad". -/
def t1 : ResultFunc Nat String := fun _ => (some 1, some "bad")

/-- A function that returns no result and the error "worse". -/
def t2 : ResultFunc Nat String := fun _ => (none, some "worse")

/-- The function that returns `(i, nil)`. -/
def countTask (i : Nat) : ResultFunc Nat String := fun _ => (some i, none)

/-- The number of functions of a call of `RunAndCombine`; `none` for `Wait`. -/
def Call.size {ρ ε : Type} : Call ρ ε → Option Nat
  | .RunAndCombine fns => some fns.length
  | .Wait => none

/-- A runner of capacity 2 whose thread has submitted two functions, has
called `Wait`, which has returned, and is about to call `Wait` again. -/
def demoWaited : Sys Nat String :=
  run 14 (boot 2 [[.RunAndCombine [t0, t1], .Wait, .Wait]])

/-- A runner of capacity 1 on which `Wait` has returned and whose thread is
about to call `RunAndCombine` with a function. -/
def demoReused : Sys Nat String :=
  run 3 (boot 1 [[.Wait, .RunAndCombine [t0]]])

/-- A runner of capacity 1 on which `Wait` has returned and whose thread is
about to call `RunAndCombine` with no function. -/
def demoEmpty : Sys Nat String :=
  run 3 (boot 1 [[.Wait, .RunAndCombine []]])

/-- A runner of capacity 1 whose thread, inside `RunAndCombine` with two
functions, has launched the first. -/
def demoFull : Sys Nat String :=
  run 2 (boot 1 [[.RunAndCombine [t0, t1]]])

/-- The schedule that leads to `demoBusy`. -/
def busySchedule : List Action :=
  [.caller 0, .caller 0, .caller 0, .task 0, .task 1, .task 0]

/-- A runner of capacity 2 with three functions submitted, two of them
launched and executing. -/
def demoBusy : Sys Nat String :=
  (runActions (boot 2 [[.RunAndCombine [t0, t1, t2]]]) busySchedule).getD (boot 2 [])

/-- `New(1); RunAndCombine(f0); RunAndCombine(f1); Wait()` in one thread. -/
def twoBatches (f0 f1 : ResultFunc Nat String) : RaceSys Nat String :=
  raceBoot 1 [[.RunAndCombine [f0], .RunAndCombine [f1], .Wait]]

/-- The schedule in which every goroutine finishes before the thread goes
on. -/
def calmSchedule : List Action :=
  [.caller 0, .caller 0, .caller 0,
   .task 0, .task 0, .task 0, .task 0, .task 0, .task 0, .task 0,
   .caller 0, .caller 0, .caller 0,
   .task 1, .task 1, .task 1, .task 1, .task 1, .task 1, .task 1,
   .caller 0, .caller 0, .caller 0]

/-- The schedule in which the first goroutine reads `p.results`, the thread
then reserves the slot of the second batch, and the goroutine writes after
that. -/
def resultRaceSchedule : List Action :=
  [.caller 0, .caller 0, .caller 0,
   .task 0, .task 0, .task 0,
   .caller 0,
   .task 0, .task 0, .task 0, .task 0,
   .caller 0, .caller 0,
   .task 1, .task 1, .task 1, .task 1, .task 1, .task 1, .task 1,
   .caller 0, .caller 0, .caller 0]

/-- The schedule in which the first goroutine reads `p.me`, the thread then
reserves the slot of the second batch, and the goroutine writes after that. -/
def errorRaceSchedule : List Action :=
  [.caller 0, .caller 0, .caller 0,
   .task 0, .task 0, .task 0, .task 0, .task 0,
   .caller 0,
   .task 0, .task 0,
   .caller 0, .caller 0,
   .task 1, .task 1, .task 1, .task 1, .task 1, .task 1, .task 1,
   .caller 0, .caller 0, .caller 0]

/-- `New(1)` used by two threads: one submits a function and calls `Wait`,
the other calls `Wait`. -/
def twoWaiters : Sys Nat String :=
  boot 1 [[.RunAndCombine [t1], .Wait], [.Wait]]

/-- The schedule in which the second thread calls `Wait` after the first has
entered `Wait` and before the goroutine has started. -/
def earlyWaitSchedule : List Action :=
  [.caller 0, .caller 0, .caller 0, .caller 0, .caller 1]

/-- The rest of the run after `earlyWaitSchedule`: the goroutine finishes and
the `Wait` of the first thread returns. -/
def lateWaitSchedule : List Action :=
  [.task 0, .task 0, .task 0, .caller 0, .caller 0]

variable {ρ ε : Type}

/-! ## Theorems: the aggregator -/

theorem numErrors_append {ε : Type} (l : MultiError ε) (e : Option ε) :
    numErrors (l ++ [e]) = numErrors l + (if e.isSome then 1 else 0) := by
  cases e <;> simp [numErrors, List.filter_append]

theorem lastError_append {ε : Type} (l : MultiError ε) (e : Option ε) :
    lastError (l ++ [e]) = (match e with | some x => some x | none => lastError l) := by
  cases e <;> simp [lastError, List.findSome?_cons]

/-- The loop of `MultiError.Error` counts the non-nil entries and ends with
`err` the last of them. -/
theorem errorLoop_eq {ε : Type} (me : MultiError ε) :
    errorLoop me = (numErrors me, lastError me) := by
  induction me using List.reverseRecOn with
  | nil => rfl
  | append_singleton l e ih =>
    have h : errorLoop (l ++ [e]) = errorLoopBody (errorLoop l) e := by
      simp [errorLoop, List.foldl_append]
    rw [h, ih, numErrors_append, lastError_append]
    cases e <;> simp [errorLoopBody]

theorem lastError_mem {ε : Type} (me : MultiError ε) (x : ε) (h : lastError me = some x) :
    some x ∈ me := by
  unfold lastError at h
  obtain ⟨a, ha, hx⟩ := List.exists_of_findSome?_eq_some h
  simp at ha hx
  subst hx; exact ha

theorem lastError_isSome {ε : Type} (me : MultiError ε) (h : 0 < numErrors me) :
    ∃ x, lastError me = some x := by
  induction me using List.reverseRecOn with
  | nil => simp [numErrors] at h
  | append_singleton l e ih =>
    rw [lastError_append]
    cases e with
    | some x => exact ⟨x, rfl⟩
    | none =>
      rw [numErrors_append] at h
      simpa using ih (by simpa using h)

theorem numErrors_one_unique {ε : Type} (me : MultiError ε) (x y : ε) (h : numErrors me = 1)
    (hx : some x ∈ me) (hy : some y ∈ me) : x = y := by
  unfold numErrors at h
  have hx' : some x ∈ me.filter (fun e => e.isSome) := by simp [List.mem_filter, hx]
  have hy' : some y ∈ me.filter (fun e => e.isSome) := by simp [List.mem_filter, hy]
  obtain ⟨a, ha⟩ := List.length_eq_one.mp h
  rw [ha] at hx' hy'
  simp at hx' hy'
  exact Option.some.inj (hx'.trans hy'.symm)

theorem HasError_iff {ε : Type} (me : MultiError ε) :
    MultiError.HasError me = true ↔ ∃ e, some e ∈ me := by
  unfold MultiError.HasError
  cases me with
  | nil => simp
  | cons a l =>
    simp only [List.length_cons, Nat.succ_ne_zero, if_false, List.any_eq_true]
    constructor
    · rintro ⟨x, hx, hs⟩
      obtain ⟨e, rfl⟩ := Option.isSome_iff_exists.mp hs
      exact ⟨e, hx⟩
    · rintro ⟨e, he⟩
      exact ⟨some e, he, rfl⟩

/-- `MultiError.Error` never dereferences a nil `err`: it always returns a
string. -/
theorem MultiError.Error_isSome {ε : Type} [GoError ε] (me : MultiError ε) :
    (MultiError.Error me).isSome = true := by
  unfold MultiError.Error
  rw [errorLoop_eq]
  by_cases h0 : numErrors me = 0
  · simp [h0]
  · obtain ⟨x, hx⟩ := lastError_isSome me (Nat.pos_of_ne_zero h0)
    by_cases h1 : numErrors me = 1 <;> simp [h0, h1, hx, callError]

/-- C3, as the code has it: for a `MultiError` with `k > 1` non-nil entries,
`Error()` returns "<m> and <k-1> other errors" where `m` is the message of the
LAST non-nil entry in sequence order. -/
theorem MultiError.Error_many {ε : Type} [GoError ε] (me : MultiError ε)
    (hk : 1 < numErrors me) :
    ∃ e, lastError me = some e ∧
      MultiError.Error me =
        some (GoError.Error e ++ " and " ++ Nat.repr (numErrors me - 1) ++ " other errors") := by
  obtain ⟨x, hx⟩ := lastError_isSome me (by omega)
  refine ⟨x, hx, ?_⟩
  unfold MultiError.Error
  rw [errorLoop_eq]
  have h0 : numErrors me ≠ 0 := by omega
  have h1 : numErrors me ≠ 1 := by omega
  simp [h0, h1, hx, callError]

/-- C3 at the entries `[e0, nil, e2]`: two errors, and the message names the
last of them. -/
theorem MultiError.Error_many_witness :
    ∃ e, lastError [some "e0", none, some "e2"] = some e ∧
      MultiError.Error [some "e0", none, some "e2"] =
        some (GoError.Error e ++ " and " ++
          Nat.repr (numErrors [some "e0", none, some "e2"] - 1) ++ " other errors") :=
  MultiError.Error_many [some "e0", none, some "e2"] (by decide)

/-- C3 as stated fails: for the entries `[e0, nil, e2]` the first non-nil entry
is `e0`, and `Error()` is "e2 and 1 other errors", not "e0 and 1 other errors". -/
theorem MultiError.Error_first_counterexample :
    numErrors [some "e0", none, some "e2"] = 2 ∧
    firstError [some "e0", none, some "e2"] = some "e0" ∧
    MultiError.Error [some "e0", none, some "e2"] = some "e2 and 1 other errors" ∧
    MultiError.Error [some "e0", none, some "e2"] ≠
      some (GoError.Error "e0" ++ " and " ++ Nat.repr (2 - 1) ++ " other errors") := by
  decide

/-- C4: `HasError` is true iff some entry is non-nil (for the empty sequence
too); `ReturnError` is nil iff every entry is nil, and when it is not nil it is
the `MultiError` itself, all entries and nil placeholders in place. -/
theorem MultiError.HasError_ReturnError {ε : Type} (me : MultiError ε) :
    (MultiError.HasError me = true ↔ ∃ e, some e ∈ me) ∧
    (MultiError.ReturnError me = none ↔ ∀ x ∈ me, x = none) ∧
    (MultiError.ReturnError me ≠ none ↔ MultiError.ReturnError me = some me) ∧
    MultiError.HasError ([] : MultiError ε) = false ∧
    MultiError.ReturnError ([] : MultiError ε) = none := by
  have hiff := HasError_iff me
  refine ⟨hiff, ?_, ?_, rfl, rfl⟩
  · unfold MultiError.ReturnError
    by_cases h : MultiError.HasError me = true
    · simp only [h, if_true]
      obtain ⟨e, he⟩ := hiff.mp h
      constructor
      · intro hc; cases hc
      · intro hall
        have := hall _ he
        cases this
    · simp only [h]
      constructor
      · intro _ x hx
        cases x with
        | none => rfl
        | some e => exact absurd (hiff.mpr ⟨e, hx⟩) h
      · intro _; rfl
  · unfold MultiError.ReturnError
    by_cases h : MultiError.HasError me = true <;> simp [h]

/-- C4 at the entries `[nil, e, nil]` and at `[nil, nil]`. -/
theorem MultiError.HasError_ReturnError_witness :
    MultiError.ReturnError [none, some "e", none] = some [none, some "e", none] ∧
    MultiError.ReturnError ([none, none] : MultiError String) = none :=
  ⟨(MultiError.HasError_ReturnError [none, some "e", none]).2.2.1.mp (by decide), by decide⟩

/-- C5: for a `MultiError` with exactly one non-nil entry `e`, wherever it
stands, `Error()` is `e.Error()`. -/
theorem MultiError.Error_single {ε : Type} [GoError ε] (me : MultiError ε) (e : ε)
    (h1 : numErrors me = 1) (he : some e ∈ me) :
    MultiError.Error me = some (GoError.Error e) := by
  obtain ⟨x, hx⟩ := lastError_isSome me (by omega)
  have hxe : x = e := numErrors_one_unique me x e h1 (lastError_mem me x hx) he
  subst hxe
  unfold MultiError.Error
  rw [errorLoop_eq]
  simp [h1, hx, callError]

/-- C5 at the entries `[nil, e, nil, nil]`. -/
theorem MultiError.Error_single_witness :
    MultiError.Error [none, some "boom", none, none] = some "boom" :=
  MultiError.Error_single [none, some "boom", none, none] "boom" (by decide) (by decide)

theorem callerStep_sound (p : concRunner ρ ε) (c : Caller ρ ε) (p' : concRunner ρ ε)
    (c' : Caller ρ ε) (new : List (Goroutine ρ ε))
    (h : callerStep p c = some (p', c', new)) : CallerStep p c p' c' new := by
  unfold callerStep at h
  split at h
  · rename_i hctl
    split at h
    · cases h
    · rename_i fns rest hprog
      unfold concRunner.RunAndCombine_reserve at h
      by_cases hf : fns.length = 0
      · have hnil : fns = [] := List.length_eq_zero.mp hf
        subst hnil
        simp at h
        obtain ⟨rfl, rfl, rfl⟩ := h
        exact CallerStep.emptyBatch rest hctl hprog
      · have hne : fns ≠ [] := fun hn => hf (by simp [hn])
        by_cases hd : p.done = true
        · simp [hf, hd] at h
          obtain ⟨rfl, rfl, rfl⟩ := h
          exact CallerStep.reused fns rest hctl hprog hne hd
        · simp [hf, hd] at h
          obtain ⟨rfl, rfl, rfl⟩ := h
          have hd' : p.done = false := by simpa using hd
          have := CallerStep.reserve fns rest hctl hprog hne hd'
          simpa [hd'] using this
    · rename_i rest hprog
      by_cases hd : p.done = true
      · simp [hd] at h
        obtain ⟨rfl, rfl, rfl⟩ := h
        exact CallerStep.waitAgain rest hctl hprog hd
      · simp [hd] at h
        obtain ⟨rfl, rfl, rfl⟩ := h
        exact CallerStep.waitFirst rest hctl hprog (by simpa using hd)
  · rename_i fns low i high hctl
    by_cases hi : i < high
    · simp only [hi, if_true, concRunner.acquire] at h
      by_cases hs : p.sem < p.semCap
      · simp [hs] at h
        obtain ⟨rfl, rfl, rfl⟩ := h
        exact CallerStep.spawn fns low i high hctl hi hs
      · simp [hs] at h
    · simp [hi] at h
      obtain ⟨rfl, rfl, rfl⟩ := h
      exact CallerStep.submitted fns low i high hctl hi
  · rename_i i hctl
    by_cases hi : i < p.semCap
    · simp only [hi, if_true, concRunner.acquire] at h
      by_cases hs : p.sem < p.semCap
      · simp [hs] at h
        obtain ⟨rfl, rfl, rfl⟩ := h
        exact CallerStep.drain i hctl hi hs
      · simp [hs] at h
    · simp [hi] at h
      obtain ⟨rfl, rfl, rfl⟩ := h
      exact CallerStep.waitReturn i hctl hi
  · cases h

theorem callerStep_complete (p : concRunner ρ ε) (c : Caller ρ ε) (p' : concRunner ρ ε)
    (c' : Caller ρ ε) (new : List (Goroutine ρ ε))
    (h : CallerStep p c p' c' new) : callerStep p c = some (p', c', new) := by
  cases h with
  | emptyBatch rest hctl hprog =>
    simp [callerStep, hctl, hprog, concRunner.RunAndCombine_reserve]
  | reserve fns rest hctl hprog hne hd =>
    have hf : fns.length ≠ 0 := fun h0 => hne (List.length_eq_zero.mp h0)
    simp [callerStep, hctl, hprog, concRunner.RunAndCombine_reserve, hf, hd]
  | reused fns rest hctl hprog hne hd =>
    have hf : fns.length ≠ 0 := fun h0 => hne (List.length_eq_zero.mp h0)
    simp [callerStep, hctl, hprog, concRunner.RunAndCombine_reserve, hf, hd]
  | waitAgain rest hctl hprog hd => simp [callerStep, hctl, hprog, hd]
  | waitFirst rest hctl hprog hd => simp [callerStep, hctl, hprog, hd]
  | spawn fns low i high hctl hi hs => simp [callerStep, hctl, hi, hs, concRunner.acquire]
  | submitted fns low i high hctl hi => simp [callerStep, hctl, hi]
  | drain i hctl hi hs => simp [callerStep, hctl, hi, hs, concRunner.acquire]
  | waitReturn i hctl hi => simp [callerStep, hctl, hi]

theorem goroutineStep_sound (p : concRunner ρ ε) (g : Goroutine ρ ε) (p' : concRunner ρ ε)
    (g' : Goroutine ρ ε) (h : goroutineStep p g = some (p', g')) : GoStep p g p' g' := by
  unfold goroutineStep at h
  split at h
  · rename_i hph
    split at h
    · rename_i f hf
      simp at h
      obtain ⟨rfl, rfl⟩ := h
      exact GoStep.start f hph hf
    · cases h
  · rename_i hph
    split at h
    · rename_i f hf
      by_cases hb : g.idx < p.results.length ∧ g.idx < p.me.length
      · simp [hb] at h
        obtain ⟨rfl, rfl⟩ := h
        exact GoStep.store f hph hf hb.1 hb.2
      · simp [hb] at h
    · cases h
  · rename_i hph
    unfold concRunner.release at h
    by_cases hs : 0 < p.sem
    · simp [hs] at h
      obtain ⟨rfl, rfl⟩ := h
      exact GoStep.release hph hs
    · simp [hs] at h
  · cases h

theorem goroutineStep_complete (p : concRunner ρ ε) (g : Goroutine ρ ε) (p' : concRunner ρ ε)
    (g' : Goroutine ρ ε) (h : GoStep p g p' g') : goroutineStep p g = some (p', g') := by
  cases h with
  | start f hph hf => simp [goroutineStep, hph, hf]
  | store f hph hf h1 h2 => simp [goroutineStep, hph, hf, h1, h2]
  | release hph hs => simp [goroutineStep, hph, hs, concRunner.release]

/-- A step is a step of a calling thread or of a goroutine. -/
theorem Step_iff (s s' : Sys ρ ε) :
    Step s s' ↔
      (∃ t c p' c' new, s.callers[t]? = some c ∧ CallerStep s.p c p' c' new ∧
        s' = { p := p', gs := s.gs ++ new, callers := s.callers.set t c' }) ∨
      (∃ k g p' g', s.gs[k]? = some g ∧ GoStep s.p g p' g' ∧
        s' = { p := p', gs := s.gs.set k g', callers := s.callers }) := by
  constructor
  · rintro ⟨a, ha⟩
    cases a with
    | caller t =>
      left
      unfold step at ha
      cases hc : s.callers[t]? with
      | none => simp [hc] at ha
      | some c =>
        simp only [hc, Option.map_eq_some'] at ha
        obtain ⟨⟨p', c', new⟩, hstep, rfl⟩ := ha
        exact ⟨t, c, p', c', new, hc, callerStep_sound _ _ _ _ _ hstep, rfl⟩
    | task k =>
      right
      unfold step at ha
      cases hg : s.gs[k]? with
      | none => simp [hg] at ha
      | some g =>
        simp only [hg, Option.map_eq_some'] at ha
        obtain ⟨⟨p', g'⟩, hstep, rfl⟩ := ha
        exact ⟨k, g, p', g', hg, goroutineStep_sound _ _ _ _ hstep, rfl⟩
  · rintro (⟨t, c, p', c', new, hc, hstep, rfl⟩ | ⟨k, g, p', g', hg, hstep, rfl⟩)
    · exact ⟨.caller t, by simp [step, hc, callerStep_complete _ _ _ _ _ hstep]⟩
    · exact ⟨.task k, by simp [step, hg, goroutineStep_complete _ _ _ _ hstep]⟩

theorem sum_map_set {α : Type} (f : α → Nat) (l : List α) (k : Nat) (a b : α)
    (h : l[k]? = some a) : ((l.set k b).map f).sum + f a = (l.map f).sum + f b := by
  induction l generalizing k with
  | nil => simp at h
  | cons x xs ih =>
    cases k with
    | zero =>
      simp at h
      subst h
      simp [List.set]
      omega
    | succ k =>
      simp at h
      have := ih k h
      simp only [List.set, List.map_cons, List.sum_cons]
      omega

theorem countP_set {α : Type} (q : α → Bool) (l : List α) (k : Nat) (a b : α)
    (h : l[k]? = some a) :
    (l.set k b).countP q + (if q a then 1 else 0) = l.countP q + (if q b then 1 else 0) := by
  induction l generalizing k with
  | nil => simp at h
  | cons x xs ih =>
    cases k with
    | zero =>
      simp at h
      subst h
      simp [List.set, List.countP_cons]
      omega
    | succ k =>
      simp at h
      have := ih k h
      simp [List.set, List.countP_cons]
      omega

theorem CallerStep.caller_semCap_eq {p p' : concRunner ρ ε} {c c' : Caller ρ ε}
    {new : List (Goroutine ρ ε)} (h : CallerStep p c p' c' new) : p'.semCap = p.semCap := by
  cases h <;> rfl

theorem GoStep.go_semCap_eq {p p' : concRunner ρ ε} {g g' : Goroutine ρ ε}
    (h : GoStep p g p' g') : p'.semCap = p.semCap := by
  cases h <;> rfl

theorem CallerStep.caller_cost_lt {p p' : concRunner ρ ε} {c c' : Caller ρ ε}
    {new : List (Goroutine ρ ε)} (h : CallerStep p c p' c' new) :
    Caller.cost p.semCap c' + (new.map (fun g => g.phase.cost)).sum < Caller.cost p.semCap c := by
  cases h with
  | emptyBatch rest hctl hprog => simp [Caller.cost, hctl, hprog, Ctl.cost, Call.cost]
  | reserve fns rest hctl hprog hne hd =>
    simp [Caller.cost, hctl, hprog, Ctl.cost, Call.cost]
  | reused fns rest hctl hprog hne hd =>
    simp [Caller.cost, hctl, hprog, Ctl.cost, Call.cost]
  | waitAgain rest hctl hprog hd => simp [Caller.cost, hctl, hprog, Ctl.cost, Call.cost]
  | waitFirst rest hctl hprog hd =>
    simp [Caller.cost, hctl, hprog, Ctl.cost, Call.cost]
  | spawn fns low i high hctl hi hs =>
    simp [Caller.cost, hctl, Ctl.cost, Phase.cost]
    omega
  | submitted fns low i high hctl hi => simp [Caller.cost, hctl, Ctl.cost]
  | drain i hctl hi hs =>
    simp [Caller.cost, hctl, Ctl.cost]
    omega
  | waitReturn i hctl hi => simp [Caller.cost, hctl, Ctl.cost]

theorem GoStep.go_cost_lt {p p' : concRunner ρ ε} {g g' : Goroutine ρ ε}
    (h : GoStep p g p' g') : g'.phase.cost < g.phase.cost := by
  cases h with
  | start f hph hf => simp [hph, Phase.cost]
  | store f hph hf h1 h2 => simp [hph, Phase.cost]
  | release hph hs => simp [hph, Phase.cost]

/-- Every step makes the measure smaller: no schedule runs forever. -/
theorem measure_lt (s s' : Sys ρ ε) (h : Step s s') : measure s' < measure s := by
  rcases (Step_iff s s').mp h with
    ⟨t, c, p', c', new, hc, hstep, rfl⟩ | ⟨k, g, p', g', hg, hstep, rfl⟩
  · have hcap := hstep.caller_semCap_eq
    have hlt := hstep.caller_cost_lt
    have hset := sum_map_set (Caller.cost s.p.semCap) s.callers t c c' hc
    simp only [measure, hcap, List.map_append, List.sum_append]
    omega
  · have hcap := hstep.go_semCap_eq
    have hlt := hstep.go_cost_lt
    have hset := sum_map_set (fun g : Goroutine ρ ε => g.phase.cost) s.gs k g g' hg
    simp only [measure, hcap]
    simp only at hset
    omega

theorem Reachable.step {s0 s s' : Sys ρ ε} (h : Reachable s0 s) (hs : Step s s') :
    Reachable s0 s' :=
  Relation.ReflTransGen.tail h hs

/-- A property of the first state that every step keeps holds in every
reachable state. -/
theorem Reachable.invariant {s0 s : Sys ρ ε} (P : Sys ρ ε → Prop) (h : Reachable s0 s)
    (h0 : P s0) (hstep : ∀ a b, P a → Step a b → P b) : P s := by
  induction h with
  | refl => exact h0
  | tail _ hs ih => exact hstep _ _ ih hs

theorem runActions_reachable (acts : List Action) (s s' : Sys ρ ε)
    (h : runActions s acts = some s') : Reachable s s' := by
  induction acts generalizing s with
  | nil =>
    simp [runActions] at h
    subst h
    exact Relation.ReflTransGen.refl
  | cons a as ih =>
    simp only [runActions, Option.bind_eq_some] at h
    obtain ⟨s1, h1, h2⟩ := h
    exact Relation.ReflTransGen.head ⟨a, h1⟩ (ih s1 h2)

theorem executing_le_holding (gs : List (Goroutine ρ ε)) :
    gs.countP Goroutine.executing ≤ gs.countP Goroutine.holding := by
  apply List.countP_mono_left
  intro g _ hg
  unfold Goroutine.executing at hg
  unfold Goroutine.holding
  cases hph : g.phase <;> simp [hph] at hg ⊢

/-- A step of a calling thread keeps the two slices equally long and never
shortens them. -/
theorem CallerStep.length_le {p p' : concRunner ρ ε} {c c' : Caller ρ ε}
    {new : List (Goroutine ρ ε)} (h : CallerStep p c p' c' new) :
    p.me.length ≤ p'.me.length ∧ p.results.length ≤ p'.results.length ∧
      (p.results.length = p.me.length → p'.results.length = p'.me.length) := by
  cases h <;> simp

theorem GoStep.length_eq {p p' : concRunner ρ ε} {g g' : Goroutine ρ ε}
    (h : GoStep p g p' g') :
    p'.me.length = p.me.length ∧ p'.results.length = p.results.length := by
  cases h <;> simp

/-- A step of a calling thread changes `len(p.sem)` by what it adds to the
goroutines holding a permit, or adds one without spawning (the loop of `Wait`). -/
theorem CallerStep.caller_sem_bound {p p' : concRunner ρ ε} {c c' : Caller ρ ε}
    {new : List (Goroutine ρ ε)} (h : CallerStep p c p' c' new) (hle : p.sem ≤ p.semCap) :
    p'.sem ≤ p'.semCap ∧ p.sem + new.countP Goroutine.holding ≤ p'.sem := by
  cases h <;> simp [Goroutine.holding] <;> omega

theorem GoStep.go_sem_bound {p p' : concRunner ρ ε} {g g' : Goroutine ρ ε}
    (h : GoStep p g p' g') (hle : p.sem ≤ p.semCap) :
    p'.sem ≤ p'.semCap ∧
      p'.sem + (if g.holding then 1 else 0) = p.sem + (if g'.holding then 1 else 0) := by
  cases h with
  | start f hph hf => simp [Goroutine.holding, hph, hle]
  | store f hph hf h1 h2 => simp [Goroutine.holding, hph, hle]
  | release hph hs =>
    simp [Goroutine.holding, hph]
    omega

/-- The invariant of every runner, whatever its threads do: `cap(p.sem)` is
the capacity given to `New`, `len(p.sem)` is at most that, the goroutines
holding a permit are at most `len(p.sem)`, and the two slices are equally long. -/
theorem general_invariant (max : Nat) (progs : List (List (Call ρ ε))) (s : Sys ρ ε)
    (h : Reachable (boot max progs) s) :
    s.p.semCap = max ∧ s.p.sem ≤ s.p.semCap ∧ s.gs.countP Goroutine.holding ≤ s.p.sem ∧
      s.p.results.length = s.p.me.length := by
  refine Reachable.invariant
    (fun s => s.p.semCap = max ∧ s.p.sem ≤ s.p.semCap ∧
      s.gs.countP Goroutine.holding ≤ s.p.sem ∧ s.p.results.length = s.p.me.length)
    h ?_ ?_
  · simp [boot, New]
  · rintro a b ⟨hcap, hle, hhold, hlen⟩ hstep
    rcases (Step_iff a b).mp hstep with
      ⟨t, c, p', c', new, hc, hst, rfl⟩ | ⟨k, g, p', g', hg, hst, rfl⟩
    · have h1 := hst.caller_semCap_eq
      have h2 := hst.caller_sem_bound hle
      have h3 := hst.length_le
      refine ⟨by simpa [h1] using hcap, h2.1, ?_, h3.2.2 hlen⟩
      simp only [List.countP_append]
      omega
    · have h1 := hst.go_semCap_eq
      have h2 := hst.go_sem_bound hle
      have h3 := hst.length_eq
      have h4 := countP_set Goroutine.holding a.gs k g g' hg
      refine ⟨by simpa [h1] using hcap, h2.1, ?_, by simp only [h3.1, h3.2, hlen]⟩
      simp only
      omega

/-- C2: in every state a runner `New(capacity)` reaches, under any
interleaving of calls and goroutine steps, the goroutines that have started
their function and not yet released their permit are at most `capacity`. -/
theorem executing_le_capacity (capacity : Nat) (progs : List (List (Call ρ ε))) (s : Sys ρ ε)
    (h : Reachable (boot capacity progs) s) :
    s.gs.countP Goroutine.executing ≤ capacity ∧
      s.gs.countP Goroutine.holding ≤ s.p.sem ∧ s.p.sem ≤ capacity := by
  obtain ⟨hcap, hle, hhold, _⟩ := general_invariant capacity progs s h
  have := executing_le_holding s.gs
  omega

/-- C10: in every state a runner reaches, whatever calls are made (empty
batches, batches after `Wait`, calls of `Wait`) and whatever the goroutines do,
`p.results` and `p.me` are equally long, and no step shortens them. -/
theorem lengths_equal_and_monotone (capacity : Nat) (progs : List (List (Call ρ ε)))
    (s : Sys ρ ε) (h : Reachable (boot capacity progs) s) :
    s.p.results.length = s.p.me.length ∧
      ∀ s', Step s s' →
        s.p.me.length ≤ s'.p.me.length ∧ s.p.results.length ≤ s'.p.results.length := by
  refine ⟨(general_invariant capacity progs s h).2.2.2, ?_⟩
  intro s' hstep
  rcases (Step_iff s s').mp hstep with
    ⟨t, c, p', c', new, hc, hst, rfl⟩ | ⟨k, g, p', g', hg, hst, rfl⟩
  · exact ⟨hst.length_le.1, hst.length_le.2.1⟩
  · have := hst.length_eq
    simp only
    omega

theorem rets_nil_of_not_done {prog0 : List (Call ρ ε)} {s : Sys ρ ε} {c : Caller ρ ε}
    (hinv : SeqInv prog0 s c) (hd : s.p.done = false) : c.rets = [] := by
  cases hr : c.rets with
  | nil => rfl
  | cons v vs =>
    have := (hinv.rets_ok v (by simp [hr])).1
    simp [hd] at this

/-- A step of the one calling thread keeps the invariant. -/
theorem SeqInv.caller_preserves {prog0 : List (Call ρ ε)} {s : Sys ρ ε} {c c' : Caller ρ ε}
    {p' : concRunner ρ ε} {new : List (Goroutine ρ ε)}
    (hinv : SeqInv prog0 s c) (hst : CallerStep s.p c p' c' new) :
    SeqInv prog0 { p := p', gs := s.gs ++ new, callers := [c'] } c' := by
  obtain ⟨hcal, hsem, hle, hidx, hlen, hres, hme, hctlok, hrets, htasks⟩ := hinv
  have hinv : SeqInv prog0 s c := ⟨hcal, hsem, hle, hidx, hlen, hres, hme, hctlok, hrets, htasks⟩
  unfold CtlInv at hctlok
  cases hst with
  | emptyBatch rest hctl hprog =>
    rw [hctl] at hctlok
    refine ⟨rfl, ?_, hle, ?_, ?_, ?_, ?_, ?_, hrets, ?_⟩
    · simpa [pushes, hctl] using hsem
    · simpa using hidx
    · simpa using hlen
    · simpa using hres
    · simpa using hme
    · simpa [CtlInv, hctl] using hctlok
    · simpa [hctl, hprog, batchesOf] using htasks
  | reserve fns rest hctl hprog hne hd =>
    rw [hctl] at hctlok
    have hr := rets_nil_of_not_done hinv hd
    obtain ⟨hgl, -⟩ := hctlok
    refine ⟨rfl, ?_, hle, ?_, ?_, ?_, ?_, ?_, ?_, ?_⟩
    · simpa [pushes, hctl, hd] using hsem
    · simpa using hidx
    · simp; omega
    · simp only [List.append_nil, List.length_append, List.length_replicate]
      rw [hres, hgl]
      simp
    · simp only [List.append_nil, List.length_append, List.length_replicate]
      conv_lhs => rw [hme, hgl]
      simp
      omega
    · simp [CtlInv, hgl, hd]
    · simp [hr]
    · simpa [hctl, hprog, batchesOf, hd, Ctl.pending] using htasks
  | reused fns rest hctl hprog hne hd =>
    rw [hctl] at hctlok
    refine ⟨rfl, ?_, hle, ?_, ?_, ?_, ?_, ?_, hrets, ?_⟩
    · simpa [pushes, hctl, hd] using hsem
    · simpa using hidx
    · simpa using hlen
    · simpa using hres
    · simpa using hme
    · simp [CtlInv, hd, hctlok.1]
    · simpa [hctl, hd, Ctl.pending] using htasks
  | waitAgain rest hctl hprog hd =>
    rw [hctl] at hctlok
    refine ⟨rfl, ?_, hle, ?_, ?_, ?_, ?_, ?_, ?_, ?_⟩
    · simpa [pushes, hctl, hd] using hsem
    · simpa using hidx
    · simpa using hlen
    · simpa using hres
    · simpa using hme
    · simp [CtlInv, hctl, hctlok.1]
    · intro v hv
      simp only [List.mem_append, List.mem_singleton] at hv
      rcases hv with hv | hv
      · exact hrets v hv
      · exact ⟨hd, hv⟩
    · simpa [hctl, hd, Ctl.pending] using htasks
  | waitFirst rest hctl hprog hd =>
    rw [hctl] at hctlok
    have hr := rets_nil_of_not_done hinv hd
    refine ⟨rfl, ?_, hle, ?_, ?_, ?_, ?_, ?_, ?_, ?_⟩
    · simpa [pushes, hctl, hd] using hsem
    · simpa using hidx
    · simpa using hlen
    · simpa using hres
    · simpa using hme
    · simp [CtlInv, hctlok.1, hr]
    · simp [hr]
    · simpa [hctl, hd, hprog, batchesOf, Ctl.pending] using htasks
  | spawn fns low i high hctl hi hs =>
    rw [hctl] at hctlok
    obtain ⟨hhigh, hig, hlow, hih, hfl, hd⟩ := hctlok
    refine ⟨rfl, ?_, ?_, ?_, ?_, ?_, ?_, ?_, hrets, ?_⟩
    · simp [pushes, hctl, hd, List.countP_append, Goroutine.holding] at hsem ⊢
      omega
    · simp; omega
    · intro k g hk
      by_cases hkl : k < s.gs.length
      · rw [List.getElem?_append_left hkl] at hk
        exact hidx k g hk
      · rw [List.getElem?_append_right (by omega)] at hk
        have hk0 : k - s.gs.length = 0 := by
          by_contra hne
          obtain ⟨m, hm⟩ := Nat.exists_eq_succ_of_ne_zero hne
          rw [hm] at hk
          simp at hk
        rw [hk0] at hk
        simp at hk
        subst hk
        simp
        omega
    · simp; omega
    · simp only [List.map_append, List.map_cons, List.map_nil, List.length_append,
        List.length_singleton]
      conv_lhs => rw [hres]
      obtain ⟨m, hm⟩ : ∃ m, s.p.me.length - s.gs.length = m + 1 :=
        ⟨s.p.me.length - s.gs.length - 1, by omega⟩
      have hm' : s.p.me.length - (s.gs.length + 1) = m := by omega
      rw [hm, hm', List.replicate_succ]
      simp [Goroutine.res]
    · simp only [List.map_append, List.map_cons, List.map_nil, List.length_append,
        List.length_singleton]
      conv_lhs => rw [hme]
      obtain ⟨m, hm⟩ : ∃ m, s.p.me.length - s.gs.length = m + 1 :=
        ⟨s.p.me.length - s.gs.length - 1, by omega⟩
      have hm' : s.p.me.length - (s.gs.length + 1) = m := by omega
      rw [hm, hm', List.replicate_succ]
      simp [Goroutine.err]
    · simp [CtlInv, hd]
      omega
    · have hb : i - low < fns.length := by omega
      have hdrop : fns.drop (i - low) = fns[i - low] :: fns.drop (i + 1 - low) := by
        rw [List.drop_eq_getElem_cons (by omega)]
        congr 2
        omega
      simp only [hctl, Ctl.pending, hd] at htasks
      rw [hdrop] at htasks
      simp only [Ctl.pending, hd, List.map_append, List.map_cons, List.map_nil, Goroutine.task]
      rw [← htasks]
      simp [List.getElem?_eq_getElem (show i - low < fns.length by omega)]
  | submitted fns low i high hctl hi =>
    rw [hctl] at hctlok
    obtain ⟨hhigh, hig, hlow, hih, hfl, hd⟩ := hctlok
    refine ⟨rfl, ?_, hle, ?_, ?_, ?_, ?_, ?_, hrets, ?_⟩
    · simpa [pushes, hctl, hd] using hsem
    · simpa using hidx
    · simpa using hlen
    · simpa using hres
    · simpa using hme
    · simp [CtlInv, hd]
      omega
    · have hdrop : fns.drop (i - low) = [] := by
        apply List.drop_eq_nil_of_le
        omega
      simpa [hctl, hd, Ctl.pending, hdrop] using htasks
  | drain i hctl hi hs =>
    rw [hctl] at hctlok
    obtain ⟨hic, hd, hgl, hr⟩ := hctlok
    refine ⟨rfl, ?_, ?_, ?_, ?_, ?_, ?_, ?_, hrets, ?_⟩
    · simp [pushes, hctl] at hsem ⊢
      omega
    · simp; omega
    · simpa using hidx
    · simpa using hlen
    · simpa using hres
    · simpa using hme
    · simp [CtlInv, hd, hgl, hr]
      omega
    · simpa [hctl, hd, Ctl.pending] using htasks
  | waitReturn i hctl hi =>
    rw [hctl] at hctlok
    obtain ⟨hic, hd, hgl, hr⟩ := hctlok
    refine ⟨rfl, ?_, hle, ?_, ?_, ?_, ?_, ?_, ?_, ?_⟩
    · simp [pushes, hctl, hd] at hsem ⊢
      omega
    · simpa using hidx
    · simpa using hlen
    · simpa using hres
    · simpa using hme
    · simp [CtlInv, hgl]
    · simp [hr, hd]
    · simpa [hctl, hd, Ctl.pending] using htasks

theorem map_set_same {α β : Type} (f : α → β) (l : List α) (k : Nat) (a b : α)
    (h : l[k]? = some a) (hf : f b = f a) : (l.set k b).map f = l.map f := by
  induction l generalizing k with
  | nil => simp
  | cons x xs ih =>
    cases k with
    | zero =>
      simp at h
      subst h
      simp [hf]
    | succ k =>
      simp at h
      simp [ih k h]

theorem holding_pos {gs : List (Goroutine ρ ε)} {k : Nat} {g : Goroutine ρ ε}
    (hg : gs[k]? = some g) (hh : g.holding = true) : 0 < gs.countP Goroutine.holding := by
  rw [List.countP_pos_iff]
  exact ⟨g, List.mem_iff_getElem?.mpr ⟨k, hg⟩, hh⟩

/-- Once `Wait` has returned, no goroutine holds a permit. -/
theorem SeqInv.quiet {prog0 : List (Call ρ ε)} {s : Sys ρ ε} {c : Caller ρ ε}
    (hinv : SeqInv prog0 s c) (hr : c.rets ≠ []) : s.gs.countP Goroutine.holding = 0 := by
  obtain ⟨v, hv⟩ := List.exists_mem_of_ne_nil _ hr
  have hd := (hinv.rets_ok v hv).1
  have hsem := hinv.sem_eq
  have hle := hinv.sem_le
  have hc := hinv.ctl_ok
  unfold CtlInv at hc
  unfold pushes at hsem
  cases hctl : c.ctl with
  | idle => simp [hctl, hd] at hsem; omega
  | submitLoop fns low i high => simp [hctl, hd] at hc
  | waitLoop i => simp [hctl] at hc; exact absurd hc.2.2.2 hr
  | panicked msg => simp [hctl, hd] at hsem; omega

/-- A step of a goroutine keeps the invariant. -/
theorem SeqInv.go_preserves {prog0 : List (Call ρ ε)} {s : Sys ρ ε} {c : Caller ρ ε}
    {p' : concRunner ρ ε} {k : Nat} {g g' : Goroutine ρ ε}
    (hinv : SeqInv prog0 s c) (hg : s.gs[k]? = some g) (hst : GoStep s.p g p' g') :
    SeqInv prog0 { p := p', gs := s.gs.set k g', callers := s.callers } c := by
  obtain ⟨hcal, hsem, hle, hidx, hlen, hres, hme, hctlok, hrets, htasks⟩ := hinv
  have hinv : SeqInv prog0 s c := ⟨hcal, hsem, hle, hidx, hlen, hres, hme, hctlok, hrets, htasks⟩
  have hcount := countP_set Goroutine.holding s.gs k g g' hg
  have hkl : k < s.gs.length := (List.getElem?_eq_some.mp hg).1
  have hgk : g.idx = k := hidx k g hg
  have hidx' : ∀ (j : Nat) (h : Goroutine ρ ε), g'.idx = g.idx → (s.gs.set k g')[j]? = some h →
      h.idx = j := by
    intro j h hi hj
    rw [List.getElem?_set] at hj
    by_cases hkj : k = j
    · simp [hkj] at hj
      obtain ⟨-, rfl⟩ := hj
      omega
    · simp [hkj] at hj
      exact hidx j h hj
  cases hst with
  | start f hph hf =>
    have ht : Goroutine.task { g with phase := Phase.running } = Goroutine.task g := rfl
    refine ⟨hcal, ?_, hle, ?_, ?_, ?_, ?_, ?_, hrets, ?_⟩
    · simp [Goroutine.holding, hph] at hcount
      simp only [pushes] at hsem ⊢
      omega
    · exact fun j h hj => hidx' j h rfl hj
    · simpa using hlen
    · simp only [List.length_set]
      rw [map_set_same Goroutine.res s.gs k g _ hg (by simp [Goroutine.res, hph])]
      exact hres
    · simp only [List.length_set]
      rw [map_set_same Goroutine.err s.gs k g _ hg (by simp [Goroutine.err, hph])]
      exact hme
    · simpa [CtlInv] using hctlok
    · rw [map_set_same Goroutine.task s.gs k g _ hg ht]
      exact htasks
  | store f hph hf h1 h2 =>
    have ht : Goroutine.task { g with phase := Phase.stored } = Goroutine.task g := rfl
    have hr : c.rets = [] := by
      by_contra hne
      have h0 := hinv.quiet hne
      have := holding_pos hg (by simp [Goroutine.holding, hph])
      omega
    refine ⟨hcal, ?_, hle, ?_, ?_, ?_, ?_, ?_, ?_, ?_⟩
    · simp [Goroutine.holding, hph] at hcount
      simp only [pushes] at hsem ⊢
      omega
    · exact fun j h hj => hidx' j h rfl hj
    · simpa using hlen
    · have hv : Goroutine.res { g with phase := Phase.stored } = (f ()).1 := by
        simp [Goroutine.res, ht, hf]
      simp only [List.length_set, List.map_set, hv]
      conv_lhs => rw [hres]
      rw [hgk, List.set_append_left _ _ (by simpa using hkl)]
    · have hv : Goroutine.err { g with phase := Phase.stored } = (f ()).2 := by
        simp [Goroutine.err, ht, hf]
      simp only [List.length_set, List.map_set, hv]
      conv_lhs => rw [hme]
      rw [hgk, List.set_append_left _ _ (by simpa using hkl)]
    · simpa [CtlInv] using hctlok
    · simp [hr]
    · rw [map_set_same Goroutine.task s.gs k g _ hg ht]
      exact htasks
  | release hph hs =>
    have ht : Goroutine.task { g with phase := Phase.exited } = Goroutine.task g := rfl
    refine ⟨hcal, ?_, ?_, ?_, ?_, ?_, ?_, ?_, hrets, ?_⟩
    · simp [Goroutine.holding, hph] at hcount
      simp only [pushes] at hsem ⊢
      omega
    · simp; omega
    · exact fun j h hj => hidx' j h rfl hj
    · simpa using hlen
    · simp only [List.length_set]
      rw [map_set_same Goroutine.res s.gs k g _ hg
        (by cases htk : g.task <;> simp [Goroutine.res, hph, ht, htk])]
      exact hres
    · simp only [List.length_set]
      rw [map_set_same Goroutine.err s.gs k g _ hg
        (by cases htk : g.task <;> simp [Goroutine.err, hph, ht, htk])]
      exact hme
    · simpa [CtlInv] using hctlok
    · rw [map_set_same Goroutine.task s.gs k g _ hg ht]
      exact htasks

theorem SeqInv.boot (max : Nat) (prog0 : List (Call ρ ε)) :
    SeqInv prog0 (boot max [prog0]) { ctl := .idle, prog := prog0, rets := [] } := by
  refine ⟨rfl, ?_, ?_, ?_, ?_, ?_, ?_, ?_, ?_, ?_⟩ <;>
    simp [concrunner.boot, New, pushes, CtlInv, Ctl.pending]

/-- The invariant holds in every state of a runner used by one thread. -/
theorem seq_invariant (max : Nat) (prog0 : List (Call ρ ε)) (s : Sys ρ ε)
    (h : Reachable (boot max [prog0]) s) : ∃ c, SeqInv prog0 s c := by
  refine Reachable.invariant (fun s => ∃ c, SeqInv prog0 s c) h ⟨_, SeqInv.boot max prog0⟩ ?_
  rintro a b ⟨c, hinv⟩ hstep
  rcases (Step_iff a b).mp hstep with
    ⟨t, c0, p', c', new, hc, hst, rfl⟩ | ⟨k, g, p', g', hg, hst, rfl⟩
  · have hcal := hinv.callers_eq
    rw [hcal] at hc
    cases t with
    | zero =>
      simp at hc
      subst hc
      refine ⟨c', ?_⟩
      have := hinv.caller_preserves hst
      simpa [hcal] using this
    | succ t => simp at hc
  · exact ⟨c, hinv.go_preserves hg hst⟩

theorem map_res_of_exited (gs : List (Goroutine ρ ε))
    (h : ∀ g ∈ gs, g.phase = .exited) :
    gs.map Goroutine.res =
      (gs.map Goroutine.task).map (fun o => o.bind (fun f => (f ()).1)) := by
  rw [List.map_map]
  apply List.map_congr_left
  intro g hg
  have := h g hg
  cases ht : g.task <;> simp [Goroutine.res, this, ht]

theorem map_err_of_exited (gs : List (Goroutine ρ ε))
    (h : ∀ g ∈ gs, g.phase = .exited) :
    gs.map Goroutine.err =
      (gs.map Goroutine.task).map (fun o => o.bind (fun f => (f ()).2)) := by
  rw [List.map_map]
  apply List.map_congr_left
  intro g hg
  have := h g hg
  cases ht : g.task <;> simp [Goroutine.err, this, ht]

/-- When `Wait` has returned, every goroutine has finished and the slots
hold the outcomes of all the functions submitted before `Wait`, in submission
order. -/
theorem SeqInv.final {prog0 : List (Call ρ ε)} {s : Sys ρ ε} {c : Caller ρ ε}
    (hinv : SeqInv prog0 s c) (hr : c.rets ≠ []) :
    s.p.results = resultsOf (batchesOf prog0) ∧ s.p.me = errorsOf (batchesOf prog0) ∧
      (∀ g ∈ s.gs, g.phase = .exited) ∧ s.p.done = true := by
  obtain ⟨v, hv⟩ := List.exists_mem_of_ne_nil _ hr
  have hd := (hinv.rets_ok v hv).1
  have hq := hinv.quiet hr
  have hex : ∀ g ∈ s.gs, g.phase = .exited := by
    intro g hg
    have := List.countP_eq_zero.mp hq g hg
    simpa [Goroutine.holding] using this
  have hc := hinv.ctl_ok
  have ht := hinv.tasks_ok
  unfold CtlInv at hc
  have hlen : s.gs.length = s.p.me.length ∧ c.ctl.pending = [] := by
    cases hctl : c.ctl with
    | idle => simp [hctl] at hc; exact ⟨hc.1, rfl⟩
    | submitLoop fns low i high => simp [hctl, hd] at hc
    | waitLoop i => simp [hctl] at hc; exact absurd hc.2.2.2 hr
    | panicked msg => simp [hctl] at hc; exact ⟨hc.2, rfl⟩
  simp only [hlen.2, hd, if_true, List.append_nil, List.map_nil] at ht
  refine ⟨?_, ?_, hex, hd⟩
  · rw [hinv.results_eq, hlen.1, Nat.sub_self, List.replicate_zero, List.append_nil,
      map_res_of_exited _ hex, ht]
    simp [resultsOf]
  · have := hinv.me_eq
    rw [hlen.1, Nat.sub_self, List.replicate_zero, List.append_nil,
      map_err_of_exited _ hex, ht] at this
    rw [this]
    simp [errorsOf]

theorem batchesOf_seqProg (batches : List (List (ResultFunc ρ ε))) :
    batchesOf (seqProg batches) = batches.flatten := by
  induction batches with
  | nil => rfl
  | cons b bs ih =>
    have h : seqProg (b :: bs) = Call.RunAndCombine b :: seqProg bs := rfl
    rw [h, batchesOf, ih, List.flatten_cons]

theorem ProgInv.caller_keeps {prog0 : List (Call ρ ε)} {s : Sys ρ ε} {c c' : Caller ρ ε}
    {p' : concRunner ρ ε} {new : List (Goroutine ρ ε)}
    (hinv : SeqInv prog0 s c) (hp : ProgInv s c) (hst : CallerStep s.p c p' c' new) :
    ProgInv { p := p', gs := s.gs ++ new, callers := [c'] } c' := by
  obtain ⟨hpan, hlen, hprog⟩ := hp
  have hcok := hinv.ctl_ok
  unfold CtlInv at hcok
  cases hst with
  | emptyBatch rest hctl hpr =>
    refine ⟨by simp [hctl, Ctl.isPanicked], hlen, ?_⟩
    rcases hprog with ⟨hd, rem, hrem⟩ | ⟨hd, hnil⟩
    · left
      refine ⟨hd, ?_⟩
      cases rem with
      | nil => simp [hpr] at hrem
      | cons b bs =>
        simp [hpr] at hrem
        exact ⟨bs, hrem.2⟩
    · simp [hpr] at hnil
  | reserve fns rest hctl hpr hne hd =>
    refine ⟨by simp [Ctl.isPanicked], hlen, ?_⟩
    rcases hprog with ⟨-, rem, hrem⟩ | ⟨-, hnil⟩
    · left
      refine ⟨hd, ?_⟩
      cases rem with
      | nil => simp [hpr] at hrem
      | cons b bs =>
        simp [hpr] at hrem
        exact ⟨bs, hrem.2⟩
    · simp [hpr] at hnil
  | reused fns rest hctl hpr hne hd =>
    rcases hprog with ⟨hd', -⟩ | ⟨-, hnil⟩
    · simp [hd] at hd'
    · simp [hpr] at hnil
  | waitAgain rest hctl hpr hd =>
    rcases hprog with ⟨hd', -⟩ | ⟨-, hnil⟩
    · simp [hd] at hd'
    · simp [hpr] at hnil
  | waitFirst rest hctl hpr hd =>
    refine ⟨by simp [Ctl.isPanicked], hlen, ?_⟩
    rcases hprog with ⟨-, rem, hrem⟩ | ⟨-, hnil⟩
    · right
      refine ⟨rfl, ?_⟩
      cases rem with
      | nil => simpa [hpr] using hrem
      | cons b bs => simp [hpr] at hrem
    · simp [hpr] at hnil
  | spawn fns low i high hctl hi hs =>
    exact ⟨by simp [Ctl.isPanicked], hlen, hprog⟩
  | submitted fns low i high hctl hi =>
    exact ⟨by simp [Ctl.isPanicked], hlen, hprog⟩
  | drain i hctl hi hs =>
    exact ⟨by simp [Ctl.isPanicked], hlen, hprog⟩
  | waitReturn i hctl hi =>
    rw [hctl] at hcok
    refine ⟨by simp [Ctl.isPanicked], by simp [hcok.2.2.2], hprog⟩

theorem ProgInv.go_keeps {s : Sys ρ ε} {c : Caller ρ ε}
    {p' : concRunner ρ ε} {k : Nat} {g g' : Goroutine ρ ε}
    (hp : ProgInv s c) (hst : GoStep s.p g p' g') :
    ProgInv { p := p', gs := s.gs.set k g', callers := s.callers } c := by
  have hd : p'.done = s.p.done := by cases hst <;> rfl
  simpa [ProgInv, hd] using hp

/-- The invariants of a runner whose one thread submits `batches` and then
calls `Wait`. -/
theorem seqProg_invariant (max : Nat) (batches : List (List (ResultFunc ρ ε))) (s : Sys ρ ε)
    (h : Reachable (boot max [seqProg batches]) s) :
    ∃ c, SeqInv (seqProg batches) s c ∧ ProgInv s c ∧ s.p.semCap = max := by
  refine Reachable.invariant
    (fun s => ∃ c, SeqInv (seqProg batches) s c ∧ ProgInv s c ∧ s.p.semCap = max) h ?_ ?_
  · refine ⟨_, SeqInv.boot max _, ?_, rfl⟩
    refine ⟨rfl, by simp, Or.inl ⟨rfl, batches, rfl⟩⟩
  · rintro a b ⟨c, hinv, hp, hcap⟩ hstep
    rcases (Step_iff a b).mp hstep with
      ⟨t, c0, p', c', new, hc, hst, rfl⟩ | ⟨k, g, p', g', hg, hst, rfl⟩
    · have hcal := hinv.callers_eq
      rw [hcal] at hc
      cases t with
      | zero =>
        simp at hc
        subst hc
        refine ⟨c', ?_, ?_, by simpa [hst.caller_semCap_eq] using hcap⟩
        · simpa [hcal] using hinv.caller_preserves hst
        · simpa [hcal] using ProgInv.caller_keeps hinv hp hst
      | succ t => simp at hc
    · exact ⟨c, hinv.go_preserves hg hst, ProgInv.go_keeps hp hst, by simpa [hst.go_semCap_eq] using hcap⟩

theorem SeqInv.task_isSome {prog0 : List (Call ρ ε)} {s : Sys ρ ε} {c : Caller ρ ε}
    (hinv : SeqInv prog0 s c) {k : Nat} {g : Goroutine ρ ε} (hg : s.gs[k]? = some g) :
    ∃ f, g.task = some f := by
  have hkl : k < s.gs.length := (List.getElem?_eq_some.mp hg).1
  have ht := congrArg (fun l => l[k]?) hinv.tasks_ok
  simp only at ht
  rw [List.getElem?_append_left (by simpa using hkl)] at ht
  simp only [List.getElem?_map, hg, Option.map_some'] at ht
  cases hb : (batchesOf prog0)[k]? with
  | none => simp [hb] at ht
  | some f =>
    simp [hb] at ht
    exact ⟨f, ht⟩

theorem SeqInv.results_length {prog0 : List (Call ρ ε)} {s : Sys ρ ε} {c : Caller ρ ε}
    (hinv : SeqInv prog0 s c) : s.p.results.length = s.p.me.length := by
  have h := congrArg List.length hinv.results_eq
  have hl := hinv.len_le
  simp at h
  omega

/-- A goroutine that holds a permit can take a step: it neither blocks nor
indexes out of range. -/
theorem SeqInv.go_can_step {prog0 : List (Call ρ ε)} {s : Sys ρ ε} {c : Caller ρ ε}
    (hinv : SeqInv prog0 s c) (hpos : 0 < s.gs.countP Goroutine.holding) :
    ∃ s', Step s s' := by
  obtain ⟨g, hmem, hh⟩ := List.countP_pos_iff.mp hpos
  obtain ⟨k, hg⟩ := List.mem_iff_getElem?.mp hmem
  obtain ⟨f, hf⟩ := hinv.task_isSome hg
  have hkl : k < s.gs.length := (List.getElem?_eq_some.mp hg).1
  have hgk := hinv.idx_eq k g hg
  have hlen := hinv.len_le
  have hrl := hinv.results_length
  have hsem := hinv.sem_eq
  cases hph : g.phase with
  | spawned =>
    exact ⟨_, (Step_iff _ _).mpr (Or.inr ⟨k, g, _, _, hg, GoStep.start f hph hf, rfl⟩)⟩
  | running =>
    exact ⟨_, (Step_iff _ _).mpr (Or.inr ⟨k, g, _, _, hg,
      GoStep.store f hph hf (by omega) (by omega), rfl⟩)⟩
  | stored =>
    exact ⟨_, (Step_iff _ _).mpr (Or.inr ⟨k, g, _, _, hg, GoStep.release hph (by omega), rfl⟩)⟩
  | exited => simp [Goroutine.holding, hph] at hh

/-- Until `Wait` has returned some thread can take a step: a runner with a
capacity of at least one, used as `seqProg` does, never deadlocks. -/
theorem seqProg_progress {prog0 : List (Call ρ ε)} {s : Sys ρ ε} {c : Caller ρ ε}
    (hinv : SeqInv prog0 s c) (hp : ProgInv s c) (hcap : 1 ≤ s.p.semCap) (hr : c.rets = []) :
    ∃ s', Step s s' := by
  obtain ⟨hpan, -, hprog⟩ := hp
  have hcok := hinv.ctl_ok
  have hsem := hinv.sem_eq
  have hcal := hinv.callers_eq
  have hc0 : s.callers[0]? = some c := by simp [hcal]
  unfold CtlInv at hcok
  have caller : ∀ p' c' new, CallerStep s.p c p' c' new → ∃ s', Step s s' :=
    fun p' c' new hst => ⟨_, (Step_iff _ _).mpr (Or.inl ⟨0, c, p', c', new, hc0, hst, rfl⟩)⟩
  cases hctl : c.ctl with
  | idle =>
    rw [hctl] at hcok
    rcases hprog with ⟨hd, rem, hrem⟩ | ⟨hd, hnil⟩
    · cases rem with
      | nil => exact caller _ _ _ (CallerStep.waitFirst [] hctl (by simpa using hrem) hd)
      | cons b bs =>
        by_cases hb : b = []
        · subst hb
          exact caller _ _ _ (CallerStep.emptyBatch _ hctl (by simpa using hrem))
        · exact caller _ _ _ (CallerStep.reserve b _ hctl (by simpa using hrem) hb hd)
    · exact absurd hr (hcok.2 hd)
  | submitLoop fns low i high =>
    rw [hctl] at hcok
    by_cases hi : i < high
    · by_cases hs : s.p.sem < s.p.semCap
      · exact caller _ _ _ (CallerStep.spawn fns low i high hctl hi hs)
      · apply hinv.go_can_step
        simp [pushes, hctl, hcok.2.2.2.2.2] at hsem
        omega
    · exact caller _ _ _ (CallerStep.submitted fns low i high hctl hi)
  | waitLoop i =>
    rw [hctl] at hcok
    by_cases hi : i < s.p.semCap
    · by_cases hs : s.p.sem < s.p.semCap
      · exact caller _ _ _ (CallerStep.drain i hctl hi hs)
      · apply hinv.go_can_step
        simp [pushes, hctl] at hsem
        omega
    · exact caller _ _ _ (CallerStep.waitReturn i hctl hi)
  | panicked msg => simp [hctl, Ctl.isPanicked] at hpan

theorem next_step (s s' : Sys ρ ε) (h : next s = some s') : Step s s' := by
  unfold next at h
  obtain ⟨a, -, ha⟩ := List.exists_of_findSome?_eq_some h
  exact ⟨a, ha⟩

theorem next_none (s : Sys ρ ε) (h : next s = none) (s' : Sys ρ ε) : ¬ Step s s' := by
  rintro ⟨a, ha⟩
  unfold next at h
  rw [List.findSome?_eq_none_iff] at h
  cases a with
  | caller t =>
    by_cases ht : t < s.callers.length
    · have := h (.caller t) (by simp [actions, ht])
      rw [this] at ha
      cases ha
    · simp [step, List.getElem?_eq_none (Nat.le_of_not_lt ht)] at ha
  | task k =>
    by_cases hk : k < s.gs.length
    · have := h (.task k) (by simp [actions, hk])
      rw [this] at ha
      cases ha
    · simp [step, List.getElem?_eq_none (Nat.le_of_not_lt hk)] at ha

theorem run_reachable (n : Nat) (s : Sys ρ ε) : Reachable s (run n s) := by
  induction n generalizing s with
  | zero => exact Relation.ReflTransGen.refl
  | succ n ih =>
    unfold run
    cases hn : next s with
    | none => exact Relation.ReflTransGen.refl
    | some s' => exact Relation.ReflTransGen.head (next_step s s' hn) (ih s')

/-- With as much fuel as the measure, `run` stops only where no thread can
move. -/
theorem run_stuck (n : Nat) (s : Sys ρ ε) (h : measure s ≤ n) (s' : Sys ρ ε) :
    ¬ Step (run n s) s' := by
  induction n generalizing s with
  | zero =>
    intro hstep
    have := measure_lt _ _ hstep
    simp only [run] at this
    omega
  | succ n ih =>
    unfold run
    cases hn : next s with
    | none => exact next_none s hn s'
    | some s1 =>
      have := measure_lt _ _ (next_step s s1 hn)
      exact ih s1 (by omega)

/-- What `Wait` returns to a thread that has submitted `batches`. -/
theorem waitRets_of_callers {s : Sys ρ ε} {c : Caller ρ ε} (h : s.callers = [c]) :
    waitRets s 0 = c.rets := by
  simp [waitRets, h]

/-- In the step relation `Step`, where a slot write is one step: a runner with
a capacity of at least one, used by one thread that submits `batches` and then
calls `Wait`, returns from `Wait` under the schedule `run` and under every
other one, with the outcomes of all the functions in submission order. -/
theorem seqProg_core (max : Nat) (batches : List (List (ResultFunc ρ ε))) (hmax : 1 ≤ max) :
    waitRets (run (measure (boot max [seqProg batches])) (boot max [seqProg batches])) 0 =
      [(resultsOf batches.flatten, MultiError.ReturnError (errorsOf batches.flatten))] ∧
    ∀ s, Reachable (boot max [seqProg batches]) s →
      (waitRets s 0 = [] ∨
        waitRets s 0 =
          [(resultsOf batches.flatten, MultiError.ReturnError (errorsOf batches.flatten))]) ∧
      (waitRets s 0 = [] → ∃ s', Step s s') ∧
      (waitRets s 0 ≠ [] →
        s.p.results = resultsOf batches.flatten ∧ s.p.me = errorsOf batches.flatten ∧
          ∀ g ∈ s.gs, g.phase = .exited) := by
  have key : ∀ s, Reachable (boot max [seqProg batches]) s →
      (waitRets s 0 = [] ∨
        waitRets s 0 =
          [(resultsOf batches.flatten, MultiError.ReturnError (errorsOf batches.flatten))]) ∧
      (waitRets s 0 = [] → ∃ s', Step s s') ∧
      (waitRets s 0 ≠ [] →
        s.p.results = resultsOf batches.flatten ∧ s.p.me = errorsOf batches.flatten ∧
          ∀ g ∈ s.gs, g.phase = .exited) := by
    intro s hs
    obtain ⟨c, hinv, hp, hcap⟩ := seqProg_invariant max batches s hs
    rw [waitRets_of_callers hinv.callers_eq]
    have hfinal : c.rets ≠ [] →
        s.p.results = resultsOf batches.flatten ∧ s.p.me = errorsOf batches.flatten ∧
          ∀ g ∈ s.gs, g.phase = .exited := by
      intro hr
      have := hinv.final hr
      rw [batchesOf_seqProg] at this
      exact ⟨this.1, this.2.1, this.2.2.1⟩
    refine ⟨?_, fun hr => seqProg_progress hinv hp (by omega) hr, hfinal⟩
    cases hr : c.rets with
    | nil => exact Or.inl rfl
    | cons v vs =>
      right
      have hne : c.rets ≠ [] := by simp [hr]
      have hv := (hinv.rets_ok v (by simp [hr])).2
      have hl := hp.2.1
      obtain ⟨h1, h2, -⟩ := hfinal hne
      have hvs : vs = [] := by
        cases vs with
        | nil => rfl
        | cons w ws => simp [hr] at hl
      rw [hvs, hv, concRunner.view, h1, h2]
  refine ⟨?_, key⟩
  have hreach := run_reachable (measure (boot max [seqProg batches])) (boot max [seqProg batches])
  obtain ⟨h1, h2, -⟩ := key _ hreach
  rcases h1 with h1 | h1
  · obtain ⟨s', hs'⟩ := h2 h1
    exact absurd hs' (run_stuck _ _ (Nat.le_refl _) s')
  · exact h1

/-! ## Theorems: the claims about the runner -/

/-- C1 fails on the code: with two batches the slot write of a goroutine of
the first batch races with the `append` of the second. For
`New(1); RunAndCombine(f0); RunAndCombine(f1); Wait()` with `f0`, `f1`
returning `(0, nil)`, `(1, nil)`, the goroutine of `f0` reads `p.results`, the
second `RunAndCombine` reallocates it, the goroutine writes into the old array,
and `Wait` returns `[nil, 1]` where C1 says `[0, 1]`. The same race on `p.me`
loses the error of a function that failed: `Wait` returns a nil error. When
every goroutine finishes before the next call, `Wait` returns what C1 says. -/
theorem Wait_loses_slot_write_in_race :
    (raceRun growSmall (twoBatches (countTask 0) (countTask 1)) resultRaceSchedule).map
        RaceSys.rets = some [[([none, some 1], none)]] ∧
    resultsOf [countTask 0, countTask 1] = [some 0, some 1] ∧
    (raceRun growSmall (twoBatches (countTask 0) (countTask 1)) calmSchedule).map
        RaceSys.rets = some [[([some 0, some 1], none)]] ∧
    (raceRun growSmall (twoBatches t1 t0) errorRaceSchedule).map
        RaceSys.rets = some [[([some 1, some 0], none)]] ∧
    errorsOf [t1, t0] = [some "bad", none] ∧
    (raceRun growSmall (twoBatches t1 t0) calmSchedule).map
        RaceSys.rets = some [[([some 1, some 0], some [some "bad", none])]] :=
  ⟨rfl, rfl, rfl, rfl, rfl, rfl⟩

/-- In the state where the race is lost the two arrays of `p.results` differ:
the old one holds the result of the first function, the one `p.results` points
to holds nil in its place. -/
theorem race_leaves_result_in_old_array :
    (raceRun growSmall (twoBatches (countTask 0) (countTask 1)) resultRaceSchedule).map
        (fun s => (s.p.resHeap, s.p.results)) =
      some ([[some 0], [none, some 1]], { arr := 1, len := 2, cap := 2 }) :=
  rfl

/-- C8: for a capacity of at least one and one function `f`, the fast path of
`runMax` returns what the general path `New(max); RunAndCombine(f); Wait()`
returns under every schedule: the results `[res]` and, for the error `err` of
`f`, nil when `err` is nil and the one-entry `MultiError{err}` otherwise. -/
theorem runMax_fast_path_eq_general (max : Nat) (f : ResultFunc ρ ε) (hmax : 1 ≤ max) :
    runMax max [f] =
      some ([(f ()).1], if (f ()).2.isSome then some [(f ()).2] else none) ∧
    (waitRets (run (measure (boot max [[Call.RunAndCombine [f], Call.Wait]]))
        (boot max [[Call.RunAndCombine [f], Call.Wait]])) 0).head? = runMax max [f] ∧
    ∀ s, Reachable (boot max [[Call.RunAndCombine [f], Call.Wait]]) s →
      (waitRets s 0 = [] → ∃ s', Step s s') ∧
      (∀ v ∈ waitRets s 0, some v = runMax max [f]) ∧
      (waitRets s 0).length ≤ 1 := by
  have hfast : runMax max [f] =
      some ([(f ()).1], if (f ()).2.isSome then some [(f ()).2] else none) := by
    unfold runMax
    rcases hf : f () with ⟨res, err⟩
    cases err <;> simp [hf]
  have hexp : (resultsOf [[f]].flatten, MultiError.ReturnError (errorsOf [[f]].flatten)) =
      ([(f ()).1], if (f ()).2.isSome then some [(f ()).2] else none) := by
    cases h2 : (f ()).2 <;>
      simp [resultsOf, errorsOf, MultiError.ReturnError, MultiError.HasError, h2]
  obtain ⟨hrun, hall⟩ := seqProg_core max [[f]] hmax
  rw [hexp] at hrun hall
  have hboot : boot max [seqProg [[f]]] = boot max [[Call.RunAndCombine [f], Call.Wait]] := rfl
  rw [hboot] at hrun hall
  refine ⟨hfast, ?_, ?_⟩
  · rw [hrun, hfast]
    rfl
  · intro s hs
    obtain ⟨h1, h2, -⟩ := hall s hs
    refine ⟨h2, ?_, ?_⟩
    · intro v hv
      rcases h1 with h1 | h1
      · simp [h1] at hv
      · rw [h1] at hv
        simp only [List.mem_singleton] at hv
        rw [hv, hfast]
    · rcases h1 with h1 | h1 <;> simp [h1]

/-- C8 at capacity 3 and a function that fails: both paths return the
result and the one-entry `MultiError`. -/
theorem runMax_fast_path_eq_general_witness :
    runMax 3 [t1] = some ([some 1], some [some "bad"]) ∧
    (waitRets (run (measure (boot 3 [[Call.RunAndCombine [t1], Call.Wait]]))
        (boot 3 [[Call.RunAndCombine [t1], Call.Wait]])) 0).head? = runMax 3 [t1] :=
  ⟨(runMax_fast_path_eq_general 3 t1 (by decide)).1,
   (runMax_fast_path_eq_general 3 t1 (by decide)).2.1⟩

/-- The sequential part of C7: a call of `Wait` on a runner whose `done` is
set does not block, returns `p.results, p.me.ReturnError()` as they are, and
changes neither the fields of the runner (`done`, `results`, `me`, the buffer
of `sem`) nor any goroutine. On a runner used by one thread, `Wait` has then
returned before, and every value it has returned, the first one included, is
the value this call returns. -/
theorem Wait_again_returns_cached (s : Sys ρ ε) (t : Nat) (c : Caller ρ ε)
    (rest : List (Call ρ ε)) (hc : s.callers[t]? = some c)
    (hctl : c.ctl = .idle) (hprog : c.prog = .Wait :: rest) (hd : s.p.done = true) :
    step s (.caller t) =
      some { p := s.p, gs := s.gs,
             callers := s.callers.set t { c with prog := rest, rets := c.rets ++ [s.p.view] } } ∧
    ∀ (max : Nat) (prog0 : List (Call ρ ε)), Reachable (boot max [prog0]) s →
      c.rets.head? = some s.p.view ∧ ∀ v ∈ c.rets, v = s.p.view := by
  constructor
  · have hst := callerStep_complete _ _ _ _ _ (CallerStep.waitAgain rest hctl hprog hd)
    simp [step, hc, hst]
  · intro max prog0 h
    obtain ⟨c1, hinv⟩ := seq_invariant max prog0 s h
    have hcal := hinv.callers_eq
    have hcc : c1 = c := by
      rw [hcal] at hc
      cases t with
      | zero => simpa using hc
      | succ t => simp at hc
    subst hcc
    have hcok := hinv.ctl_ok
    unfold CtlInv at hcok
    rw [hctl] at hcok
    have hr := hcok.2 hd
    refine ⟨?_, fun w hw => (hinv.rets_ok w hw).2⟩
    cases hrets : c1.rets with
    | nil => exact absurd hrets hr
    | cons a as =>
      have := (hinv.rets_ok a (by simp [hrets])).2
      simp [this]

/-- On a runner of capacity 2 used by one thread, where `Wait` has returned
two results and a `MultiError`, the second call returns them again and changes
nothing. -/
theorem Wait_again_returns_cached_witness :
    demoWaited.p.view = ([some 0, some 1], some [none, some "bad"]) ∧
    step demoWaited (.caller 0) =
      some { p := demoWaited.p, gs := demoWaited.gs,
             callers := demoWaited.callers.set 0
               { ctl := .idle, prog := [],
                 rets := [([some 0, some 1], some [none, some "bad"])] ++ [demoWaited.p.view] } } ∧
    [(([some 0, some 1] : multiResult Nat),
      (some [none, some "bad"] : Option (MultiError String)))].head? = some demoWaited.p.view :=
  ⟨by decide,
   (Wait_again_returns_cached demoWaited 0
    { ctl := .idle, prog := [.Wait], rets := [([some 0, some 1], some [none, some "bad"])] } []
    rfl rfl rfl rfl).1,
   ((Wait_again_returns_cached demoWaited 0
    { ctl := .idle, prog := [.Wait], rets := [([some 0, some 1], some [none, some "bad"])] } []
    rfl rfl rfl rfl).2 2 [.RunAndCombine [t0, t1], .Wait, .Wait] (run_reachable 14 _)).1⟩

/-- C7 fails on the code: a call of `Wait` that finds `done` set returns at
once, whether or not the first call has finished waiting. On `New(1)` with one
function submitted, a first thread enters `Wait`; a second thread then calls
`Wait` and gets `([nil], nil)` while the goroutine has not started; the call
of the first thread later returns the result and the `MultiError`. The second
call did not return what the first call returned, and it did not wait for the
functions to finish as the comment of `Wait` says. -/
theorem Wait_second_call_returns_early :
    (runActions twoWaiters earlyWaitSchedule).map
        (fun s => (s.callers.map (fun c => c.rets), s.gs.map (fun g => g.phase), s.p.done)) =
      some ([[], [([none], none)]], [Phase.spawned], true) ∧
    (runActions twoWaiters (earlyWaitSchedule ++ lateWaitSchedule)).map
        (fun s => s.callers.map (fun c => c.rets)) =
      some [[([some 1], some [some "bad"])], [([none], none)]] :=
  ⟨rfl, rfl⟩

/-- C6, as the code has it: on a runner on which `Wait` has been called
(`done` is set), `RunAndCombine` with at least one function panics, reserves no
slot and spawns nothing: the runner and the goroutines are unchanged. With no
function it returns, the runner unchanged as well. No step ever clears `done`. -/
theorem RunAndCombine_after_Wait_panics (s : Sys ρ ε) (t : Nat) (c : Caller ρ ε)
    (fns : List (ResultFunc ρ ε)) (rest : List (Call ρ ε))
    (hc : s.callers[t]? = some c) (hctl : c.ctl = .idle)
    (hprog : c.prog = .RunAndCombine fns :: rest) (hd : s.p.done = true) :
    (fns ≠ [] →
      s.p.RunAndCombine_reserve fns = .error reusedMsg ∧
      step s (.caller t) =
        some { p := s.p, gs := s.gs,
               callers := s.callers.set t { c with ctl := .panicked reusedMsg, prog := rest } }) ∧
    (fns = [] →
      s.p.RunAndCombine_reserve fns = .ok (s.p, none) ∧
      step s (.caller t) =
        some { p := s.p, gs := s.gs, callers := s.callers.set t { c with prog := rest } }) ∧
    ∀ s', Step s s' → s'.p.done = true := by
  refine ⟨?_, ?_, ?_⟩
  · intro hne
    have hf : fns.length ≠ 0 := fun h0 => hne (List.length_eq_zero.mp h0)
    refine ⟨by simp [concRunner.RunAndCombine_reserve, hf, hd], ?_⟩
    have hst := callerStep_complete _ _ _ _ _ (CallerStep.reused fns rest hctl hprog hne hd)
    simp [step, hc, hst]
  · intro hnil
    subst hnil
    refine ⟨by simp [concRunner.RunAndCombine_reserve], ?_⟩
    have hst := callerStep_complete s.p c _ _ _ (CallerStep.emptyBatch rest hctl hprog)
    simp [step, hc, hst]
  · intro s' hstep
    rcases (Step_iff s s').mp hstep with
      ⟨t, c0, p', c', new, -, hst, rfl⟩ | ⟨k, g, p', g', -, hst, rfl⟩
    · cases hst <;> simp [hd]
    · cases hst <;> simp [hd]

/-- C6 on a runner of capacity 1 after `Wait`: `RunAndCombine` with one
function panics. -/
theorem RunAndCombine_after_Wait_panics_witness :
    demoReused.p.done = true ∧
    demoReused.p.RunAndCombine_reserve [t0] = .error reusedMsg ∧
    step demoReused (.caller 0) =
      some { p := demoReused.p, gs := demoReused.gs,
             callers := demoReused.callers.set 0
               { ctl := .panicked reusedMsg, prog := [], rets := [([], none)] } } :=
  ⟨rfl,
   (RunAndCombine_after_Wait_panics demoReused 0
    { ctl := .idle, prog := [.RunAndCombine [t0]], rets := [([], none)] } [t0] []
    rfl rfl rfl rfl).1 (by simp)⟩

/-- C6 as stated fails for the empty sequence of functions: on a runner on
which `Wait` has returned, `RunAndCombine()` returns without a panic. -/
theorem RunAndCombine_empty_after_Wait_counterexample :
    demoEmpty.p.done = true ∧
    demoEmpty.callers.map (fun c => (c.ctl.isIdle, c.prog.map Call.size, c.rets.length)) =
      [(true, [some 0], 1)] ∧
    (demoEmpty.p.RunAndCombine_reserve ([] : List (ResultFunc Nat String))).toBool = true ∧
    (step demoEmpty (.caller 0)).map
        (fun s' => s'.callers.map (fun c => (c.ctl.isPanicked, c.ctl.isIdle, c.prog.length))) =
      some [(false, true, 0)] := by
  decide

/-- C9, as the code has it: inside `RunAndCombine` the calling thread itself
sends to `p.sem` before each `go` statement. Its step can be taken exactly when
the buffer has room; it adds one value to the buffer and spawns the goroutine;
no step of a goroutine adds a value to the buffer. -/
theorem RunAndCombine_acquires_in_caller (s : Sys ρ ε) (t : Nat) (c : Caller ρ ε)
    (fns : List (ResultFunc ρ ε)) (low i high : Nat)
    (hc : s.callers[t]? = some c) (hctl : c.ctl = .submitLoop fns low i high) (hi : i < high) :
    ((step s (.caller t)).isSome = true ↔ s.p.sem < s.p.semCap) ∧
    (∀ s', step s (.caller t) = some s' →
      s'.p.sem = s.p.sem + 1 ∧
        s'.gs = s.gs ++ [{ idx := i, fns := fns, low := low, phase := .spawned }]) ∧
    (∀ k s', step s (.task k) = some s' → s'.p.sem ≤ s.p.sem) := by
  refine ⟨?_, ?_, ?_⟩
  · by_cases hs : s.p.sem < s.p.semCap <;>
      simp [step, hc, callerStep, hctl, hi, concRunner.acquire, hs]
  · intro s' hs'
    by_cases hs : s.p.sem < s.p.semCap
    · simp [step, hc, callerStep, hctl, hi, concRunner.acquire, hs] at hs'
      subst hs'
      exact ⟨rfl, rfl⟩
    · simp [step, hc, callerStep, hctl, hi, concRunner.acquire, hs] at hs'
  · intro k s' hs'
    rcases (Step_iff s s').mp ⟨.task k, hs'⟩ with
      ⟨t', c0, p', c', new, hc', hst, rfl⟩ | ⟨k', g, p', g', hg, hst, rfl⟩
    · unfold step at hs'
      cases hg : s.gs[k]? with
      | none => simp [hg] at hs'
      | some g =>
        simp only [hg, Option.map_eq_some'] at hs'
        obtain ⟨⟨p1, g1⟩, h1, h2⟩ := hs'
        have := goroutineStep_sound _ _ _ _ h1
        have hp : p' = p1 := by
          have := congrArg Sys.p h2
          simpa using this.symm
        subst hp
        cases this <;> simp
    · cases hst <;> simp

/-- C9 on a runner of capacity 1 with one function launched and one to go:
the step of the calling thread cannot be taken. -/
theorem RunAndCombine_acquires_in_caller_witness :
    ((step demoFull (.caller 0)).isSome = true ↔ demoFull.p.sem < demoFull.p.semCap) ∧
    (∀ s', step demoFull (.caller 0) = some s' →
      s'.p.sem = demoFull.p.sem + 1 ∧
        s'.gs = demoFull.gs ++ [{ idx := 1, fns := [t0, t1], low := 0, phase := .spawned }]) ∧
    (∀ k s', step demoFull (.task k) = some s' → s'.p.sem ≤ demoFull.p.sem) :=
  RunAndCombine_acquires_in_caller demoFull 0
    { ctl := .submitLoop [t0, t1] 0 1 2, prog := [], rets := [] } [t0, t1] 0 1 2
    rfl rfl (by decide)

/-- C9 as stated fails: on a runner of capacity 1, `RunAndCombine` with two
functions launches the first and then waits in the calling thread on
`p.sem <- true`; the call goes on only after the first goroutine has released
its permit. -/
theorem RunAndCombine_blocks_counterexample :
    Reachable (boot 1 [[.RunAndCombine [t0, t1]]]) demoFull ∧
    demoFull.callers.map (fun c => c.ctl.submitting) = [true] ∧
    demoFull.gs.map (fun g => g.phase) = [.spawned] ∧
    demoFull.p.sem = 1 ∧ demoFull.p.semCap = 1 ∧
    (step demoFull (.caller 0)).isSome = false ∧
    (runActions demoFull [.task 0, .task 0]).map
        (fun s => (step s (.caller 0)).isSome) = some false ∧
    (runActions demoFull [.task 0, .task 0, .task 0]).map
        (fun s => (step s (.caller 0)).isSome) = some true :=
  ⟨run_reachable 2 _, by decide, by decide, by decide, by decide, by decide, by decide,
    by decide⟩

/-- C2 on a runner of capacity 2 with three functions submitted: two
goroutines are executing, the third function is not launched. -/
theorem executing_le_capacity_witness :
    demoBusy.gs.map (fun g => g.phase) = [.stored, .running] ∧
    demoBusy.gs.countP Goroutine.executing ≤ 2 ∧
    demoBusy.gs.countP Goroutine.holding ≤ demoBusy.p.sem ∧ demoBusy.p.sem ≤ 2 :=
  ⟨by decide,
   executing_le_capacity 2 [[.RunAndCombine [t0, t1, t2]]] demoBusy
    (runActions_reachable busySchedule _ _ rfl)⟩

/-- C10 on a runner of capacity 2 with three slots reserved and one
written. -/
theorem lengths_equal_and_monotone_witness :
    demoBusy.p.results.length = 3 ∧
    (demoBusy.p.results.length = demoBusy.p.me.length ∧
      ∀ s', Step demoBusy s' →
        demoBusy.p.me.length ≤ s'.p.me.length ∧
          demoBusy.p.results.length ≤ s'.p.results.length) :=
  ⟨by decide,
   lengths_equal_and_monotone 2 [[.RunAndCombine [t0, t1, t2]]] demoBusy
    (runActions_reachable busySchedule _ _ rfl)⟩

end concrunner
